import Mathlib

/-!
Verification development for the `autosync` repository: a JSON-Patch based
synchronization layer over a yrs-backed CRDT document.

The embedding models:
* the Value Model conversion (`buildYInputRecursive` in `src/autosync/autosync.go`),
* path navigation and patch application (`navigateToParent`, `applyOp`,
  `ApplyOperations`, `UpdateToState` in `src/autosync/autosync.go`),
* the JavaScript patch applier (`applyOperations` in
  `src/autoSyncDoc/autoSyncDoc.js`), which additionally supports `move`/`copy`,
* the state differ, modelled from the specification (its implementation,
  `deriveOps.js`, is imported by `autoSyncDoc.js` but is not part of the
  source tree).

The yrs engine itself is an external dependency (built from
`thirdParty/y-crdt`); its map containers are unordered, so the embedding
represents a `YMap` canonically as an association list strictly sorted by key.
`ymap_insert` is modelled as sorted insert-or-overwrite, `ymap_remove` as
erasure, and `yarray_*` as the corresponding list operations.  All machine
integers are modelled as `Int`/`Nat` (the Go code performs no wrap-around
arithmetic on them); IEEE doubles are carried as opaque bit payloads, since no
code under verification computes on them.
-/

namespace AutoSync

/-- Error kinds of the layer, following section 7 of the specification.  The Go
and JS implementations surface errors as formatted strings; every error site in
the embedding is mapped to the spec kind that describes it. -/
inductive EK where
  | notFound
  | typeMismatch
  | indexOutOfRange
  | invalidPath
  | invalidOperation
  | overflow
  | unsupportedType
  | unsupportedOperation
  | engineFailure
deriving DecidableEq, Repr

/-! ### String utilities

`strings.Split(path, "/")` in Go and `path.split('/')` in JS are modelled on
the character list of the string; the Lean `String` library functions do not
reduce in the kernel, so the embedding uses its own splitter. -/

/-- Model of splitting a character list at `'/'`, matching Go's
`strings.Split(s, "/")`: the empty string yields `[""]`, and separators at the
edges produce empty segments. -/
def splitSlash : List Char → List (List Char)
  | [] => [[]]
  | c :: cs =>
      if c = '/' then [] :: splitSlash cs
      else
        match splitSlash cs with
        | t :: ts => (c :: t) :: ts
        | [] => [[c]]

/-- Joining segments with `'/'` (inverse of `splitSlash` on slash-free
segments). -/
def joinSlash : List (List Char) → List Char
  | [] => []
  | [s] => s
  | s :: rest => s ++ '/' :: joinSlash rest

theorem splitSlash_ne_nil : ∀ cs, splitSlash cs ≠ [] := by
  intro cs
  induction cs with
  | nil => simp [splitSlash]
  | cons c cs ih =>
      by_cases h : c = '/'
      · simp [splitSlash, h]
      · simp only [splitSlash, if_neg h]
        cases hs : splitSlash cs with
        | nil => exact absurd hs ih
        | cons t ts => simp

theorem splitSlash_noSlash : ∀ s : List Char, '/' ∉ s → splitSlash s = [s] := by
  intro s
  induction s with
  | nil => intro _; rfl
  | cons c cs ih =>
      intro hs
      have hc : c ≠ '/' := by intro h; exact hs (by simp [h])
      have hcs : '/' ∉ cs := by intro h; exact hs (by simp [h])
      simp only [splitSlash, if_neg hc, ih hcs]

theorem splitSlash_append : ∀ (s rest : List Char), '/' ∉ s →
    splitSlash (s ++ '/' :: rest) = s :: splitSlash rest := by
  intro s rest
  induction s with
  | nil => intro _; simp [splitSlash]
  | cons c cs ih =>
      intro hs
      have hc : c ≠ '/' := by intro h; exact hs (by simp [h])
      have hcs : '/' ∉ cs := by intro h; exact hs (by simp [h])
      have h := ih hcs
      simp only [List.cons_append, splitSlash, if_neg hc]
      simp only [List.append_eq] at h ⊢
      rw [h]

theorem splitSlash_joinSlash : ∀ segs : List (List Char), segs ≠ [] →
    (∀ s ∈ segs, '/' ∉ s) → splitSlash (joinSlash segs) = segs := by
  intro segs
  induction segs with
  | nil => intro h; exact absurd rfl h
  | cons s rest ih =>
      intro _ hfree
      cases rest with
      | nil => exact splitSlash_noSlash s (hfree s (by simp))
      | cons s2 rest2 =>
          have hjoin : joinSlash (s :: s2 :: rest2) = s ++ '/' :: joinSlash (s2 :: rest2) := rfl
          rw [hjoin, splitSlash_append s _ (hfree s (by simp))]
          rw [ih (by simp) (fun t ht => hfree t (by simp [ht]))]

/-- Go path splitting: `strings.Split(path, "/")` lifted to `String`. -/
def goSplit (s : String) : List String :=
  (splitSlash s.toList).map List.asString

/-- Render a nonempty segment list as a JSON-Pointer string
(`"/" + strings.Join(segs, "/")`). -/
def renderPtr (segs : List String) : String :=
  List.asString ('/' :: joinSlash (segs.map String.toList))

/-- A string free of the `'/'` separator: its rendering into a pointer splits
back to itself. -/
def noSlash (s : String) : Bool := !(s.toList.contains '/')

theorem toList_asString : ∀ cs : List Char, (List.asString cs).toList = cs := by
  intro cs; rfl

theorem asString_toList : ∀ s : String, List.asString s.toList = s := by
  intro s; cases s; rfl

theorem goSplit_renderPtr (segs : List String) (hne : segs ≠ [])
    (hfree : ∀ s ∈ segs, noSlash s) : goSplit (renderPtr segs) = "" :: segs := by
  unfold goSplit renderPtr
  rw [toList_asString]
  have h1 : splitSlash ('/' :: joinSlash (segs.map String.toList)) =
      [] :: splitSlash (joinSlash (segs.map String.toList)) := by
    simp [splitSlash]
  rw [h1]
  have h2 : splitSlash (joinSlash (segs.map String.toList)) = segs.map String.toList := by
    apply splitSlash_joinSlash
    · simpa using hne
    · intro s hs
      rcases List.mem_map.mp hs with ⟨t, ht, rfl⟩
      have := hfree t ht
      unfold noSlash at this
      simpa using this
  rw [h2]
  simp only [List.map_cons, List.map_map]
  have hmap : ∀ l : List String, List.map (List.asString ∘ String.toList) l = l := by
    intro l
    induction l with
    | nil => rfl
    | cons a l ih =>
        simp only [List.map_cons, Function.comp_apply, ih]
        rw [asString_toList a]
  rw [hmap]
  rfl

theorem renderPtr_ne_empty (segs : List String) : renderPtr segs ≠ "" := by
  unfold renderPtr
  intro h
  have : ('/' :: joinSlash (segs.map String.toList)) = ([] : List Char) := by
    have := congrArg String.toList h
    rwa [toList_asString] at this
  simp at this

/-! ### Decimal index parsing

`strconv.ParseUint(s, 10, 32)` in `navigateToParent`: digits only, no sign, and
the value must fit in 32 bits (larger numerals are a parse error, not an
out-of-range index). -/

/-- Accumulator-style decimal parse. -/
def decAcc : Nat → List Char → Option Nat
  | acc, [] => some acc
  | acc, c :: cs => if c.isDigit then decAcc (acc * 10 + (c.toNat - 48)) cs else none

/-- Model of `strconv.ParseUint(s, 10, 32)`: `some n` exactly when `s` is a
nonempty digit string whose value is below `2 ^ 32`. -/
def parseU32 (s : String) : Option Nat :=
  match s.toList with
  | [] => none
  | cs =>
      match decAcc 0 cs with
      | some n => if n < 2 ^ 32 then some n else none
      | none => none

/-! ### Key order and canonical association lists

yrs `YMap` containers (and Go `map[string]interface{}` values) are unordered;
the embedding represents them canonically as association lists strictly sorted
by a lexicographic key order.  `ymap_insert` becomes sorted insert-or-overwrite
and `ymap_remove` becomes erasure. -/

/-- Lexicographic order on character lists (by code point). -/
def lexLt : List Char → List Char → Bool
  | [], [] => false
  | [], _ :: _ => true
  | _ :: _, [] => false
  | a :: as, b :: bs => if a = b then lexLt as bs else decide (a.toNat < b.toNat)

/-- Strict key order on strings. -/
def keyLt (a b : String) : Bool := lexLt a.toList b.toList

theorem lexLt_irrefl : ∀ s, lexLt s s = false := by
  intro s
  induction s with
  | nil => rfl
  | cons c cs ih => simp [lexLt, ih]

theorem keyLt_irrefl (s : String) : keyLt s s = false := lexLt_irrefl s.toList

theorem char_toNat_inj {a b : Char} (h : a.toNat = b.toNat) : a = b := by
  apply Char.ext
  have : a.val.toNat = b.val.toNat := h
  exact UInt32.ext this

theorem lexLt_asymm_eq : ∀ as bs, lexLt as bs = false → lexLt bs as = false → as = bs := by
  intro as
  induction as with
  | nil =>
      intro bs h1 _
      cases bs with
      | nil => rfl
      | cons b bs => simp [lexLt] at h1
  | cons a as ih =>
      intro bs h1 h2
      cases bs with
      | nil => simp [lexLt] at h2
      | cons b bs =>
          by_cases hab : a = b
          · subst hab
            simp only [lexLt, if_pos rfl] at h1 h2
            rw [ih bs h1 h2]
          · have hba : b ≠ a := fun h => hab h.symm
            simp only [lexLt, if_neg hab, decide_eq_false_iff_not, Nat.not_lt] at h1
            simp only [lexLt, if_neg hba, decide_eq_false_iff_not, Nat.not_lt] at h2
            exact absurd (char_toNat_inj (Nat.le_antisymm h2 h1)) hab

theorem keyLt_asymm_eq {a b : String} (h1 : keyLt a b = false) (h2 : keyLt b a = false) :
    a = b := by
  have := lexLt_asymm_eq a.toList b.toList h1 h2
  have h3 := congrArg List.asString this
  rwa [asString_toList, asString_toList] at h3

theorem lexLt_trans : ∀ as bs cs, lexLt as bs = true → lexLt bs cs = true →
    lexLt as cs = true := by
  intro as
  induction as with
  | nil =>
      intro bs cs h1 h2
      cases bs with
      | nil => simp [lexLt] at h1
      | cons b bs =>
          cases cs with
          | nil => simp [lexLt] at h2
          | cons c cs => simp [lexLt]
  | cons a as ih =>
      intro bs cs h1 h2
      cases bs with
      | nil => simp [lexLt] at h1
      | cons b bs =>
          cases cs with
          | nil => simp [lexLt] at h2
          | cons c cs =>
              by_cases hab : a = b <;> by_cases hbc : b = c
              · subst hab; subst hbc
                simp only [lexLt, if_pos rfl] at h1 h2 ⊢
                exact ih bs cs h1 h2
              · subst hab
                simp only [lexLt, if_pos rfl] at h1
                simpa [lexLt, hbc] using h2
              · subst hbc
                simp only [lexLt, if_pos rfl] at h2
                simpa [lexLt, hab] using h1
              · simp only [lexLt, if_neg hab, decide_eq_true_eq] at h1
                simp only [lexLt, if_neg hbc, decide_eq_true_eq] at h2
                have hac : a ≠ c := by
                  intro h
                  subst h
                  exact absurd (char_toNat_inj (Nat.le_antisymm (Nat.le_of_lt h1) (Nat.le_of_lt h2)).symm) hbc
                simp only [lexLt, if_neg hac, decide_eq_true_eq]
                exact Nat.lt_trans h1 h2

theorem keyLt_trans {a b c : String} (h1 : keyLt a b = true) (h2 : keyLt b c = true) :
    keyLt a c = true := lexLt_trans a.toList b.toList c.toList h1 h2

theorem keyLt_ne {a b : String} (h : keyLt a b = true) : a ≠ b := by
  intro he
  subst he
  rw [keyLt_irrefl] at h
  exact Bool.false_ne_true h

/-- Association-list lookup with string keys (`ymap_get`). -/
def lookupA {α : Type} (k : String) : List (String × α) → Option α
  | [] => none
  | (k2, v) :: tl => if k = k2 then some v else lookupA k tl

/-- Sorted insert-or-overwrite (`ymap_insert` on the canonical representation
of an unordered map). -/
def insertA {α : Type} (k : String) (v : α) : List (String × α) → List (String × α)
  | [] => [(k, v)]
  | (k2, v2) :: tl =>
      if k = k2 then (k, v) :: tl
      else if keyLt k k2 then (k, v) :: (k2, v2) :: tl
      else (k2, v2) :: insertA k v tl

/-- Key removal (`ymap_remove`); returns the list unchanged when absent. -/
def eraseA {α : Type} (k : String) : List (String × α) → List (String × α)
  | [] => []
  | (k2, v2) :: tl => if k = k2 then tl else (k2, v2) :: eraseA k tl

/-- Canonical well-formedness: keys strictly sorted. -/
def kvSorted {α : Type} : List (String × α) → Bool
  | [] => true
  | [_] => true
  | (k, _) :: (k2, v2) :: tl => keyLt k k2 && kvSorted ((k2, v2) :: tl)

theorem lookupA_insertA_self {α : Type} (k : String) (v : α) :
    ∀ l, lookupA k (insertA k v l) = some v := by
  intro l
  induction l with
  | nil => simp [insertA, lookupA]
  | cons kv tl ih =>
      obtain ⟨k2, v2⟩ := kv
      by_cases h : k = k2
      · simp [insertA, lookupA, h]
      · by_cases h2 : keyLt k k2 = true
        · simp [insertA, lookupA, h, h2]
        · simp [insertA, lookupA, h, h2, ih]

theorem lookupA_insertA_ne {α : Type} {k k' : String} (v : α) (hne : k' ≠ k) :
    ∀ l, lookupA k' (insertA k v l) = lookupA k' l := by
  intro l
  induction l with
  | nil => simp [insertA, lookupA, hne]
  | cons kv tl ih =>
      obtain ⟨k2, v2⟩ := kv
      by_cases h : k = k2
      · subst h
        simp [insertA, lookupA, hne]
      · by_cases h2 : keyLt k k2 = true
        · simp [insertA, lookupA, h, hne, h2]
        · by_cases h3 : k' = k2
          · simp [insertA, lookupA, h, h2, h3]
          · simp [insertA, lookupA, h, h2, h3, ih]

theorem lookupA_eraseA_ne {α : Type} {k k' : String} (hne : k' ≠ k) :
    ∀ l : List (String × α), lookupA k' (eraseA k l) = lookupA k' l := by
  intro l
  induction l with
  | nil => simp [eraseA]
  | cons kv tl ih =>
      obtain ⟨k2, v2⟩ := kv
      by_cases h : k = k2
      · subst h
        simp [eraseA, lookupA, hne]
      · by_cases h3 : k' = k2
        · simp [eraseA, lookupA, h, h3]
        · simp [eraseA, lookupA, h, h3, ih]

/-- All keys of `l` are strictly greater than `k`. -/
def keyLtAll {α : Type} (k : String) (l : List (String × α)) : Prop :=
  ∀ kv ∈ l, keyLt k kv.1 = true

theorem kvSorted_cons {α : Type} {k : String} {v : α} {tl : List (String × α)}
    (h : kvSorted ((k, v) :: tl) = true) : kvSorted tl = true ∧ keyLtAll k tl := by
  induction tl generalizing k v with
  | nil => exact ⟨rfl, fun kv h2 => absurd h2 (List.not_mem_nil kv)⟩
  | cons kv2 tl2 ih =>
      obtain ⟨k2, v2⟩ := kv2
      have h' : keyLt k k2 = true ∧ kvSorted ((k2, v2) :: tl2) = true := by
        simpa [kvSorted] using h
      obtain ⟨hlt, hrest⟩ := h'
      obtain ⟨htl2, hall2⟩ := ih hrest
      refine ⟨hrest, ?_⟩
      intro kv hm
      rcases List.mem_cons.mp hm with h1 | h2
      · rw [h1]; exact hlt
      · exact keyLt_trans hlt (hall2 kv h2)

theorem lookupA_none_of_ltAll {α : Type} {k : String} {l : List (String × α)}
    (hall : keyLtAll k l) : lookupA k l = none := by
  induction l with
  | nil => rfl
  | cons kv tl ih =>
      obtain ⟨k2, v2⟩ := kv
      have hne : k ≠ k2 := keyLt_ne (hall (k2, v2) (by simp))
      simp only [lookupA, if_neg hne]
      exact ih (fun kv h => hall kv (by simp [h]))

theorem lookupA_eraseA_self {α : Type} (k : String) :
    ∀ l : List (String × α), kvSorted l = true → lookupA k (eraseA k l) = none := by
  intro l
  induction l with
  | nil => intro _; rfl
  | cons kv tl ih =>
      intro hs
      obtain ⟨k2, v2⟩ := kv
      obtain ⟨htl, hall⟩ := kvSorted_cons hs
      by_cases h : k = k2
      · subst h
        simpa [eraseA] using lookupA_none_of_ltAll hall
      · simp only [eraseA, if_neg h, lookupA, if_neg h]
        exact ih htl

theorem kvSorted_of_ltAll {α : Type} {k : String} {v : α} {l : List (String × α)}
    (hs : kvSorted l = true) (hall : keyLtAll k l) : kvSorted ((k, v) :: l) = true := by
  cases l with
  | nil => rfl
  | cons kv2 tl =>
      obtain ⟨k2, v2⟩ := kv2
      have : keyLt k k2 = true := hall (k2, v2) (by simp)
      simp [kvSorted, this, hs]

theorem mem_insertA {α : Type} {kv : String × α} {k : String} {v : α} :
    ∀ {l : List (String × α)}, kv ∈ insertA k v l → kv = (k, v) ∨ kv ∈ l := by
  intro l
  induction l with
  | nil => intro h; simpa [insertA] using h
  | cons kv2 tl ih =>
      obtain ⟨k2, v2⟩ := kv2
      intro h
      by_cases h1 : k = k2
      · simp only [insertA, if_pos h1] at h
        rcases List.mem_cons.mp h with h2 | h2
        · left; rw [h2, h1]
        · right; simp [h2]
      · by_cases h2 : keyLt k k2 = true
        · simp only [insertA, if_neg h1, if_pos h2] at h
          rcases List.mem_cons.mp h with h3 | h3
          · left; exact h3
          · right; exact h3
        · simp only [insertA, if_neg h1, if_neg h2] at h
          rcases List.mem_cons.mp h with h3 | h3
          · right; simp [h3]
          · rcases ih h3 with h4 | h4
            · left; exact h4
            · right; simp [h4]

theorem keyLt_total {a b : String} (hne : a ≠ b) :
    keyLt a b = true ∨ keyLt b a = true := by
  cases h1 : keyLt a b with
  | true => left; rfl
  | false =>
      cases h2 : keyLt b a with
      | true => right; rfl
      | false => exact absurd (keyLt_asymm_eq h1 h2) hne

theorem kvSorted_insertA {α : Type} (k : String) (v : α) :
    ∀ l : List (String × α), kvSorted l = true → kvSorted (insertA k v l) = true := by
  intro l
  induction l with
  | nil => intro _; rfl
  | cons kv tl ih =>
      intro hs
      obtain ⟨k2, v2⟩ := kv
      obtain ⟨htl, hall⟩ := kvSorted_cons hs
      by_cases h : k = k2
      · subst h
        simp only [insertA, if_pos rfl]
        exact kvSorted_of_ltAll htl hall
      · by_cases h2 : keyLt k k2 = true
        · simp only [insertA, if_neg h, if_pos h2]
          apply kvSorted_of_ltAll hs
          intro kv hm
          rcases List.mem_cons.mp hm with h1 | hm2
          · rw [h1]; exact h2
          · exact keyLt_trans h2 (hall kv hm2)
        · simp only [insertA, if_neg h, if_neg h2]
          have hk2k : keyLt k2 k = true := by
            rcases keyLt_total h with h3 | h3
            · exact absurd h3 h2
            · exact h3
          apply kvSorted_of_ltAll (ih htl)
          intro kv hm
          rcases mem_insertA hm with h4 | h4
          · rw [h4]; exact hk2k
          · exact hall kv h4

theorem kvSorted_eraseA {α : Type} (k : String) :
    ∀ l : List (String × α), kvSorted l = true → kvSorted (eraseA k l) = true := by
  intro l
  induction l with
  | nil => intro _; rfl
  | cons kv tl ih =>
      intro hs
      obtain ⟨k2, v2⟩ := kv
      obtain ⟨htl, hall⟩ := kvSorted_cons hs
      by_cases h : k = k2
      · simpa [eraseA, h] using htl
      · simp only [eraseA, if_neg h]
        apply kvSorted_of_ltAll (ih htl)
        intro kv hm
        have : kv ∈ tl := by
          clear hall ih hs htl
          induction tl with
          | nil => simp [eraseA] at hm
          | cons kv3 tl3 ih3 =>
              obtain ⟨k3, v3⟩ := kv3
              by_cases h3 : k = k3
              · simp only [eraseA, if_pos h3] at hm
                simp [hm]
              · simp only [eraseA, if_neg h3] at hm
                rcases List.mem_cons.mp hm with h4 | h4
                · simp [h4]
                · simp [ih3 h4]
        exact hall kv this

theorem lookupA_ext {α : Type} :
    ∀ l1 l2 : List (String × α), kvSorted l1 = true → kvSorted l2 = true →
    (∀ k, lookupA k l1 = lookupA k l2) → l1 = l2 := by
  intro l1
  induction l1 with
  | nil =>
      intro l2 _ _ hext
      cases l2 with
      | nil => rfl
      | cons kv tl =>
          obtain ⟨k, v⟩ := kv
          have := hext k
          simp [lookupA] at this
  | cons kv tl ih =>
      intro l2 hs1 hs2 hext
      obtain ⟨k, v⟩ := kv
      cases l2 with
      | nil =>
          have := hext k
          simp [lookupA] at this
      | cons kv2 tl2 =>
          obtain ⟨k2, v2⟩ := kv2
          obtain ⟨htl1, hall1⟩ := kvSorted_cons hs1
          obtain ⟨htl2, hall2⟩ := kvSorted_cons hs2
          have hkeq : k = k2 := by
            by_contra hne
            rcases keyLt_total hne with hlt | hlt
            · have h1 := hext k
              have h2 : lookupA k tl2 = none := lookupA_none_of_ltAll (fun kv hm =>
                keyLt_trans hlt (hall2 kv hm))
              have hne2 : k ≠ k2 := hne
              simp [lookupA, hne2, h2] at h1
            · have h1 := hext k2
              have h2 : lookupA k2 tl = none := lookupA_none_of_ltAll (fun kv hm =>
                keyLt_trans hlt (hall1 kv hm))
              have hne2 : k2 ≠ k := fun h => hne h.symm
              simp [lookupA, hne2, h2] at h1
          subst hkeq
          have hveq : v = v2 := by
            have h1 := hext k
            simpa [lookupA] using h1
          subst hveq
          have : tl = tl2 := by
            apply ih tl2 htl1 htl2
            intro k'
            by_cases hk' : k' = k
            · subst hk'
              rw [lookupA_none_of_ltAll hall1, lookupA_none_of_ltAll hall2]
            · have := hext k'
              simpa [lookupA, hk'] using this
          rw [this]

/-! ### Value types

`GoV` models the Go dynamic values (`interface{}`) flowing into
`buildYInputRecursive` and out of `ToJSON`: the `reflect.Kind` classes handled
by the conversion switch.  `guint` carries the `uint64` payload of an unsigned
source, `gint` the `int64` payload of a signed one, `gfloat` an opaque IEEE bit
pattern (no code computes on doubles), `gbadmap` a map with non-string key
type, and `gother` any other unsupported kind.

`YV` models the engine-side trees: yrs primitives and `YMap`/`YArray`
containers, maps in canonical key-sorted form. -/

inductive GoV where
  | gnull
  | gbool (b : Bool)
  | gint (i : Int)
  | guint (u : Nat)
  | gfloat (bits : Nat)
  | gstr (s : String)
  | glist (xs : List GoV)
  | gmap (kvs : List (String × GoV))
  | gbadmap (tag : Nat)
  | gother (kind : String)

inductive YV where
  | ynull
  | ybool (b : Bool)
  | ylong (i : Int)
  | yfloat (bits : Nat)
  | ystr (s : String)
  | yarr (xs : List YV)
  | ymap (kvs : List (String × YV))

/-- Structural induction principle for the nested inductive `GoV`. -/
theorem govIndOn (P : GoV → Prop)
    (hnull : P .gnull)
    (hbool : ∀ b, P (.gbool b))
    (hint : ∀ i, P (.gint i))
    (huint : ∀ u, P (.guint u))
    (hfloat : ∀ f, P (.gfloat f))
    (hstr : ∀ s, P (.gstr s))
    (hlist : ∀ xs, (∀ x ∈ xs, P x) → P (.glist xs))
    (hmap : ∀ kvs, (∀ kv ∈ kvs, P (Prod.snd kv)) → P (.gmap kvs))
    (hbad : ∀ t, P (.gbadmap t))
    (hoth : ∀ s, P (.gother s)) :
    ∀ v, P v
  | .gnull => hnull
  | .gbool b => hbool b
  | .gint i => hint i
  | .guint u => huint u
  | .gfloat f => hfloat f
  | .gstr s => hstr s
  | .glist xs => hlist xs (indL xs)
  | .gmap kvs => hmap kvs (indM kvs)
  | .gbadmap t => hbad t
  | .gother s => hoth s
where
  indL : ∀ xs, ∀ x ∈ xs, P x
    | x :: xs, y, h => by
        rcases List.mem_cons.mp h with h1 | h2
        · exact h1 ▸ govIndOn P hnull hbool hint huint hfloat hstr hlist hmap hbad hoth x
        · exact indL xs y h2
  indM : ∀ kvs, ∀ kv ∈ kvs, P (Prod.snd kv)
    | kv :: kvs, y, h => by
        rcases List.mem_cons.mp h with h1 | h2
        · exact h1 ▸
            govIndOn P hnull hbool hint huint hfloat hstr hlist hmap hbad hoth (Prod.snd kv)
        · exact indM kvs y h2

/-- Structural induction principle for the nested inductive `YV`. -/
theorem yvIndOn (P : YV → Prop)
    (hnull : P .ynull)
    (hbool : ∀ b, P (.ybool b))
    (hlong : ∀ i, P (.ylong i))
    (hfloat : ∀ f, P (.yfloat f))
    (hstr : ∀ s, P (.ystr s))
    (harr : ∀ xs, (∀ x ∈ xs, P x) → P (.yarr xs))
    (hmap : ∀ kvs, (∀ kv ∈ kvs, P (Prod.snd kv)) → P (.ymap kvs)) :
    ∀ v, P v
  | .ynull => hnull
  | .ybool b => hbool b
  | .ylong i => hlong i
  | .yfloat f => hfloat f
  | .ystr s => hstr s
  | .yarr xs => harr xs (indL xs)
  | .ymap kvs => hmap kvs (indM kvs)
where
  indL : ∀ xs, ∀ x ∈ xs, P x
    | x :: xs, y, h => by
        rcases List.mem_cons.mp h with h1 | h2
        · exact h1 ▸ yvIndOn P hnull hbool hlong hfloat hstr harr hmap x
        · exact indL xs y h2
  indM : ∀ kvs, ∀ kv ∈ kvs, P (Prod.snd kv)
    | kv :: kvs, y, h => by
        rcases List.mem_cons.mp h with h1 | h2
        · exact h1 ▸ yvIndOn P hnull hbool hlong hfloat hstr harr hmap (Prod.snd kv)
        · exact indM kvs y h2

/-- Decidable equality for `GoV` (hand-rolled: the deriving handler does not
support nested inductives). -/
def GoV.deq : ∀ a b : GoV, Decidable (a = b)
  | .gnull, .gnull => isTrue rfl
  | .gbool a, .gbool b =>
      if h : a = b then isTrue (by rw [h]) else isFalse (by intro he; cases he; exact h rfl)
  | .gint a, .gint b =>
      if h : a = b then isTrue (by rw [h]) else isFalse (by intro he; cases he; exact h rfl)
  | .guint a, .guint b =>
      if h : a = b then isTrue (by rw [h]) else isFalse (by intro he; cases he; exact h rfl)
  | .gfloat a, .gfloat b =>
      if h : a = b then isTrue (by rw [h]) else isFalse (by intro he; cases he; exact h rfl)
  | .gstr a, .gstr b =>
      if h : a = b then isTrue (by rw [h]) else isFalse (by intro he; cases he; exact h rfl)
  | .glist a, .glist b =>
      match deqL a b with
      | isTrue h => isTrue (by rw [h])
      | isFalse h => isFalse (by intro he; cases he; exact h rfl)
  | .gmap a, .gmap b =>
      match deqM a b with
      | isTrue h => isTrue (by rw [h])
      | isFalse h => isFalse (by intro he; cases he; exact h rfl)
  | .gbadmap a, .gbadmap b =>
      if h : a = b then isTrue (by rw [h]) else isFalse (by intro he; cases he; exact h rfl)
  | .gother a, .gother b =>
      if h : a = b then isTrue (by rw [h]) else isFalse (by intro he; cases he; exact h rfl)
  | .gnull, .gbool _ | .gnull, .gint _ | .gnull, .guint _ | .gnull, .gfloat _
  | .gnull, .gstr _ | .gnull, .glist _ | .gnull, .gmap _ | .gnull, .gbadmap _
  | .gnull, .gother _
  | .gbool _, .gnull | .gbool _, .gint _ | .gbool _, .guint _ | .gbool _, .gfloat _
  | .gbool _, .gstr _ | .gbool _, .glist _ | .gbool _, .gmap _ | .gbool _, .gbadmap _
  | .gbool _, .gother _
  | .gint _, .gnull | .gint _, .gbool _ | .gint _, .guint _ | .gint _, .gfloat _
  | .gint _, .gstr _ | .gint _, .glist _ | .gint _, .gmap _ | .gint _, .gbadmap _
  | .gint _, .gother _
  | .guint _, .gnull | .guint _, .gbool _ | .guint _, .gint _ | .guint _, .gfloat _
  | .guint _, .gstr _ | .guint _, .glist _ | .guint _, .gmap _ | .guint _, .gbadmap _
  | .guint _, .gother _
  | .gfloat _, .gnull | .gfloat _, .gbool _ | .gfloat _, .gint _ | .gfloat _, .guint _
  | .gfloat _, .gstr _ | .gfloat _, .glist _ | .gfloat _, .gmap _ | .gfloat _, .gbadmap _
  | .gfloat _, .gother _
  | .gstr _, .gnull | .gstr _, .gbool _ | .gstr _, .gint _ | .gstr _, .guint _
  | .gstr _, .gfloat _ | .gstr _, .glist _ | .gstr _, .gmap _ | .gstr _, .gbadmap _
  | .gstr _, .gother _
  | .glist _, .gnull | .glist _, .gbool _ | .glist _, .gint _ | .glist _, .guint _
  | .glist _, .gfloat _ | .glist _, .gstr _ | .glist _, .gmap _ | .glist _, .gbadmap _
  | .glist _, .gother _
  | .gmap _, .gnull | .gmap _, .gbool _ | .gmap _, .gint _ | .gmap _, .guint _
  | .gmap _, .gfloat _ | .gmap _, .gstr _ | .gmap _, .glist _ | .gmap _, .gbadmap _
  | .gmap _, .gother _
  | .gbadmap _, .gnull | .gbadmap _, .gbool _ | .gbadmap _, .gint _ | .gbadmap _, .guint _
  | .gbadmap _, .gfloat _ | .gbadmap _, .gstr _ | .gbadmap _, .glist _ | .gbadmap _, .gmap _
  | .gbadmap _, .gother _
  | .gother _, .gnull | .gother _, .gbool _ | .gother _, .gint _ | .gother _, .guint _
  | .gother _, .gfloat _ | .gother _, .gstr _ | .gother _, .glist _ | .gother _, .gmap _
  | .gother _, .gbadmap _ => isFalse (by intro h; exact GoV.noConfusion h)
where
  deqL : ∀ a b : List GoV, Decidable (a = b)
    | [], [] => isTrue rfl
    | [], _ :: _ => isFalse (by intro h; exact List.noConfusion h)
    | _ :: _, [] => isFalse (by intro h; exact List.noConfusion h)
    | x :: xs, y :: ys =>
        match GoV.deq x y, deqL xs ys with
        | isTrue h1, isTrue h2 => isTrue (by rw [h1, h2])
        | isFalse h1, _ => isFalse (by intro h; injection h with ha _; exact h1 ha)
        | _, isFalse h2 => isFalse (by intro h; injection h with _ hb; exact h2 hb)
  deqM : ∀ a b : List (String × GoV), Decidable (a = b)
    | [], [] => isTrue rfl
    | [], _ :: _ => isFalse (by intro h; exact List.noConfusion h)
    | _ :: _, [] => isFalse (by intro h; exact List.noConfusion h)
    | (k, v) :: xs, (k2, v2) :: ys =>
        match String.decEq k k2, GoV.deq v v2, deqM xs ys with
        | isTrue h1, isTrue h2, isTrue h3 => isTrue (by rw [h1, h2, h3])
        | isFalse h1, _, _ => isFalse (by
            intro h; injection h with ha _; injection ha with hk _; exact h1 hk)
        | _, isFalse h2, _ => isFalse (by
            intro h; injection h with ha _; injection ha with _ hv; exact h2 hv)
        | _, _, isFalse h3 => isFalse (by intro h; injection h with _ hb; exact h3 hb)

instance : DecidableEq GoV := GoV.deq

/-- Decidable equality for `YV`. -/
def YV.deq : ∀ a b : YV, Decidable (a = b)
  | .ynull, .ynull => isTrue rfl
  | .ybool a, .ybool b =>
      if h : a = b then isTrue (by rw [h]) else isFalse (by intro he; cases he; exact h rfl)
  | .ylong a, .ylong b =>
      if h : a = b then isTrue (by rw [h]) else isFalse (by intro he; cases he; exact h rfl)
  | .yfloat a, .yfloat b =>
      if h : a = b then isTrue (by rw [h]) else isFalse (by intro he; cases he; exact h rfl)
  | .ystr a, .ystr b =>
      if h : a = b then isTrue (by rw [h]) else isFalse (by intro he; cases he; exact h rfl)
  | .yarr a, .yarr b =>
      match deqL a b with
      | isTrue h => isTrue (by rw [h])
      | isFalse h => isFalse (by intro he; cases he; exact h rfl)
  | .ymap a, .ymap b =>
      match deqM a b with
      | isTrue h => isTrue (by rw [h])
      | isFalse h => isFalse (by intro he; cases he; exact h rfl)
  | .ynull, .ybool _ | .ynull, .ylong _ | .ynull, .yfloat _ | .ynull, .ystr _
  | .ynull, .yarr _ | .ynull, .ymap _
  | .ybool _, .ynull | .ybool _, .ylong _ | .ybool _, .yfloat _ | .ybool _, .ystr _
  | .ybool _, .yarr _ | .ybool _, .ymap _
  | .ylong _, .ynull | .ylong _, .ybool _ | .ylong _, .yfloat _ | .ylong _, .ystr _
  | .ylong _, .yarr _ | .ylong _, .ymap _
  | .yfloat _, .ynull | .yfloat _, .ybool _ | .yfloat _, .ylong _ | .yfloat _, .ystr _
  | .yfloat _, .yarr _ | .yfloat _, .ymap _
  | .ystr _, .ynull | .ystr _, .ybool _ | .ystr _, .ylong _ | .ystr _, .yfloat _
  | .ystr _, .yarr _ | .ystr _, .ymap _
  | .yarr _, .ynull | .yarr _, .ybool _ | .yarr _, .ylong _ | .yarr _, .yfloat _
  | .yarr _, .ystr _ | .yarr _, .ymap _
  | .ymap _, .ynull | .ymap _, .ybool _ | .ymap _, .ylong _ | .ymap _, .yfloat _
  | .ymap _, .ystr _ | .ymap _, .yarr _ => isFalse (by intro h; exact YV.noConfusion h)
where
  deqL : ∀ a b : List YV, Decidable (a = b)
    | [], [] => isTrue rfl
    | [], _ :: _ => isFalse (by intro h; exact List.noConfusion h)
    | _ :: _, [] => isFalse (by intro h; exact List.noConfusion h)
    | x :: xs, y :: ys =>
        match YV.deq x y, deqL xs ys with
        | isTrue h1, isTrue h2 => isTrue (by rw [h1, h2])
        | isFalse h1, _ => isFalse (by intro h; injection h with ha _; exact h1 ha)
        | _, isFalse h2 => isFalse (by intro h; injection h with _ hb; exact h2 hb)
  deqM : ∀ a b : List (String × YV), Decidable (a = b)
    | [], [] => isTrue rfl
    | [], _ :: _ => isFalse (by intro h; exact List.noConfusion h)
    | _ :: _, [] => isFalse (by intro h; exact List.noConfusion h)
    | (k, v) :: xs, (k2, v2) :: ys =>
        match String.decEq k k2, YV.deq v v2, deqM xs ys with
        | isTrue h1, isTrue h2, isTrue h3 => isTrue (by rw [h1, h2, h3])
        | isFalse h1, _, _ => isFalse (by
            intro h; injection h with ha _; injection ha with hk _; exact h1 hk)
        | _, isFalse h2, _ => isFalse (by
            intro h; injection h with ha _; injection ha with _ hv; exact h2 hv)
        | _, _, isFalse h3 => isFalse (by intro h; injection h with _ hb; exact h3 hb)

instance : DecidableEq YV := YV.deq

/-! ### Value Model conversion

`buildYInputRecursive` (`src/autosync/autosync.go`, lines 108-259): converts a
Go dynamic value into an engine input tree.  Error mapping to spec kinds:
`"uint64 value %d overflows int64"` is `Overflow`, `"map keys must be
strings"` and `"unsupported kind"` are `UnsupportedType`.  The engine map
receiving `yinput_ymap` is unordered, so map entries are canonicalized with
`insertA`; element and entry processing propagates the first error, as the Go
loops do. -/

/-- `math.MaxInt64`. -/
def maxInt64 : Nat := 2 ^ 63 - 1

def buildYInput : GoV → Except EK YV
  | .gnull => .ok .ynull
  | .gbool b => .ok (.ybool b)
  | .gint i => .ok (.ylong i)
  | .guint u => if u > maxInt64 then .error .overflow else .ok (.ylong (Int.ofNat u))
  | .gfloat f => .ok (.yfloat f)
  | .gstr s => .ok (.ystr s)
  | .glist xs =>
      match buildL xs with
      | .ok ys => .ok (.yarr ys)
      | .error e => .error e
  | .gmap kvs =>
      match buildM kvs with
      | .ok ys => .ok (.ymap ys)
      | .error e => .error e
  | .gbadmap _ => .error .unsupportedType
  | .gother _ => .error .unsupportedType
where
  buildL : List GoV → Except EK (List YV)
    | [] => .ok []
    | x :: xs =>
        match buildYInput x with
        | .error e => .error e
        | .ok y =>
            match buildL xs with
            | .error e => .error e
            | .ok ys => .ok (y :: ys)
  buildM : List (String × GoV) → Except EK (List (String × YV))
    | [] => .ok []
    | (k, v) :: tl =>
        match buildYInput v with
        | .error e => .error e
        | .ok y =>
            match buildM tl with
            | .error e => .error e
            | .ok ys => .ok (insertA k y ys)

/-- Read-back of the document state (`ToJSON`: `ybranch_json` followed by
`json.Unmarshal`), modelled as the structure-preserving conversion of the
engine tree.  Whether the engine's JSON serialization canonicalizes numeric
kinds is left open by the specification (section 9); the embedding preserves
the stored kind. -/
def y2go : YV → GoV
  | .ynull => .gnull
  | .ybool b => .gbool b
  | .ylong i => .gint i
  | .yfloat f => .gfloat f
  | .ystr s => .gstr s
  | .yarr xs => .glist (goL xs)
  | .ymap kvs => .gmap (goM kvs)
where
  goL : List YV → List GoV
    | [] => []
    | x :: xs => y2go x :: goL xs
  goM : List (String × YV) → List (String × GoV)
    | [] => []
    | (k, v) :: tl => (k, y2go v) :: goM tl

/-- Total companion of `buildYInput`: the engine tree a supported Go value
converts to (`guint` payloads land in `ylong`, like the Go conversion). -/
def gy : GoV → YV
  | .gnull => .ynull
  | .gbool b => .ybool b
  | .gint i => .ylong i
  | .guint u => .ylong (Int.ofNat u)
  | .gfloat f => .yfloat f
  | .gstr s => .ystr s
  | .glist xs => .yarr (gyL xs)
  | .gmap kvs => .ymap (gyM kvs)
  | .gbadmap _ => .ynull
  | .gother _ => .ynull
where
  gyL : List GoV → List YV
    | [] => []
    | x :: xs => gy x :: gyL xs
  gyM : List (String × GoV) → List (String × YV)
    | [] => []
    | (k, v) :: tl => (k, gy v) :: gyM tl

/-- A Go value the Value Model conversion accepts, in canonical form: no
unsupported kinds, no non-string-keyed maps, unsigned payloads within the
signed 64-bit range, and map entries strictly key-sorted. -/
def gOK : GoV → Bool
  | .gnull => true
  | .gbool _ => true
  | .gint _ => true
  | .guint u => decide (u ≤ maxInt64)
  | .gfloat _ => true
  | .gstr _ => true
  | .glist xs => okL xs
  | .gmap kvs => kvSorted kvs && okM kvs
  | .gbadmap _ => false
  | .gother _ => false
where
  okL : List GoV → Bool
    | [] => true
    | x :: xs => gOK x && okL xs
  okM : List (String × GoV) → Bool
    | [] => true
    | (_, v) :: tl => gOK v && okM tl

/-- Round-trippable target state (see the amended C1): supported and
canonical, with no lists (list reordering produces `move` operations the Go
applier rejects), no unsigned payloads (they are canonicalized to signed on
read-back), and slash-free map keys (neither differ nor applier escapes
JSON-Pointer separators per RFC6901). -/
def rtState : GoV → Bool
  | .gnull => true
  | .gbool _ => true
  | .gint _ => true
  | .guint _ => false
  | .gfloat _ => true
  | .gstr _ => true
  | .glist _ => false
  | .gmap kvs => kvSorted kvs && rtM kvs
  | .gbadmap _ => false
  | .gother _ => false
where
  rtM : List (String × GoV) → Bool
    | [] => true
    | (k, v) :: tl => noSlash k && rtState v && rtM tl

/-- Round-trippable document subtree: no arrays, maps canonically sorted with
slash-free keys. -/
def yRT : YV → Bool
  | .ynull => true
  | .ybool _ => true
  | .ylong _ => true
  | .yfloat _ => true
  | .ystr _ => true
  | .yarr _ => false
  | .ymap kvs => kvSorted kvs && yrtM kvs
where
  yrtM : List (String × YV) → Bool
    | [] => true
    | (k, v) :: tl => noSlash k && yRT v && yrtM tl

theorem insertA_ltAll {α : Type} {k : String} {v : α} {l : List (String × α)}
    (hall : keyLtAll k l) : insertA k v l = (k, v) :: l := by
  cases l with
  | nil => rfl
  | cons kv tl =>
      obtain ⟨k2, v2⟩ := kv
      have hlt : keyLt k k2 = true := hall (k2, v2) (by simp)
      have hne : k ≠ k2 := keyLt_ne hlt
      simp [insertA, hne, hlt]

theorem mem_gyM {kv : String × YV} :
    ∀ {l : List (String × GoV)}, kv ∈ gy.gyM l → ∃ v2, (kv.1, v2) ∈ l ∧ kv.2 = gy v2 := by
  intro l
  induction l with
  | nil => intro h; simp [gy.gyM] at h
  | cons kv2 tl ih =>
      obtain ⟨k2, v2⟩ := kv2
      intro h
      simp only [gy.gyM] at h
      rcases List.mem_cons.mp h with h1 | h1
      · exact ⟨v2, by simp [h1], by rw [h1]⟩
      · obtain ⟨v3, hm, he⟩ := ih h1
        exact ⟨v3, by simp [hm], he⟩

theorem kvSorted_gyM : ∀ l : List (String × GoV), kvSorted l = true →
    kvSorted (gy.gyM l) = true := by
  intro l
  induction l with
  | nil => intro _; rfl
  | cons kv tl ih =>
      obtain ⟨k, v⟩ := kv
      intro hs
      obtain ⟨htl, hall⟩ := kvSorted_cons hs
      apply kvSorted_of_ltAll (ih htl)
      intro kv2 hm
      obtain ⟨v3, hm3, _⟩ := mem_gyM hm
      exact hall (kv2.1, v3) hm3

theorem mem_goM {kv : String × GoV} :
    ∀ {l : List (String × YV)}, kv ∈ y2go.goM l → ∃ v2, (kv.1, v2) ∈ l ∧ kv.2 = y2go v2 := by
  intro l
  induction l with
  | nil => intro h; simp [y2go.goM] at h
  | cons kv2 tl ih =>
      obtain ⟨k2, v2⟩ := kv2
      intro h
      simp only [y2go.goM] at h
      rcases List.mem_cons.mp h with h1 | h1
      · exact ⟨v2, by simp [h1], by rw [h1]⟩
      · obtain ⟨v3, hm, he⟩ := ih h1
        exact ⟨v3, by simp [hm], he⟩

theorem kvSorted_goM : ∀ l : List (String × YV), kvSorted l = true →
    kvSorted (y2go.goM l) = true := by
  intro l
  induction l with
  | nil => intro _; rfl
  | cons kv tl ih =>
      obtain ⟨k, v⟩ := kv
      intro hs
      obtain ⟨htl, hall⟩ := kvSorted_cons hs
      apply kvSorted_of_ltAll (ih htl)
      intro kv2 hm
      obtain ⟨v3, hm3, _⟩ := mem_goM hm
      exact hall (kv2.1, v3) hm3

theorem rtState_gOK : ∀ g, rtState g = true → gOK g = true := by
  intro g
  induction g using govIndOn with
  | hnull => intro _; rfl
  | hbool b => intro _; rfl
  | hint i => intro _; rfl
  | huint u => intro h; simp [rtState] at h
  | hfloat f => intro _; rfl
  | hstr s => intro _; rfl
  | hlist xs ih => intro h; simp [rtState] at h
  | hmap kvs ih =>
      intro h
      have h' : kvSorted kvs = true ∧ rtState.rtM kvs = true := by
        simpa [rtState, Bool.and_eq_true] using h
      obtain ⟨hs, hm⟩ := h'
      have : gOK.okM kvs = true := by
        clear h
        induction kvs with
        | nil => rfl
        | cons kv tl iht =>
            obtain ⟨k, v⟩ := kv
            have hm' : noSlash k = true ∧ rtState v = true ∧ rtState.rtM tl = true := by
              simpa [rtState.rtM, Bool.and_eq_true, and_assoc] using hm
            obtain ⟨_, hv, htl⟩ := hm'
            have hgv : gOK v = true := ih (k, v) (by simp) hv
            have htl2 := iht (fun kv h2 => ih kv (by simp [h2]))
              (kvSorted_cons hs).1 htl
            simp [gOK.okM, hgv, htl2]
      simp [gOK, hs, this]
  | hbad t => intro h; simp [rtState] at h
  | hoth s => intro h; simp [rtState] at h

theorem buildYInput_eq_gy : ∀ g, gOK g = true → buildYInput g = .ok (gy g) := by
  intro g
  induction g using govIndOn with
  | hnull => intro _; rfl
  | hbool b => intro _; rfl
  | hint i => intro _; rfl
  | huint u =>
      intro h
      have h' : u ≤ maxInt64 := by simpa [gOK] using h
      have : ¬ u > maxInt64 := Nat.not_lt.mpr h'
      simp [buildYInput, gy, this]
  | hfloat f => intro _; rfl
  | hstr s => intro _; rfl
  | hlist xs ih =>
      intro h
      have hL : gOK.okL xs = true := by simpa [gOK] using h
      have : buildYInput.buildL xs = .ok (gy.gyL xs) := by
        clear h
        induction xs with
        | nil => rfl
        | cons x tl iht =>
            have hx : gOK x = true ∧ gOK.okL tl = true := by
              simpa [gOK.okL, Bool.and_eq_true] using hL
            have hbx := ih x (by simp) hx.1
            have hbt := iht (fun y hy => ih y (by simp [hy])) hx.2
            simp [buildYInput.buildL, hbx, hbt, gy.gyL]
      simp [buildYInput, this, gy]
  | hmap kvs ih =>
      intro h
      have h' : kvSorted kvs = true ∧ gOK.okM kvs = true := by
        simpa [gOK, Bool.and_eq_true] using h
      obtain ⟨hs, hm⟩ := h'
      have : buildYInput.buildM kvs = .ok (gy.gyM kvs) := by
        clear h
        induction kvs with
        | nil => rfl
        | cons kv tl iht =>
            obtain ⟨k, v⟩ := kv
            have hm' : gOK v = true ∧ gOK.okM tl = true := by
              simpa [gOK.okM, Bool.and_eq_true] using hm
            obtain ⟨htl, hall⟩ := kvSorted_cons hs
            have hbv := ih (k, v) (by simp) hm'.1
            have hbt := iht (fun kv h2 => ih kv (by simp [h2])) htl hm'.2
            have hins : insertA k (gy v) (gy.gyM tl) = (k, gy v) :: gy.gyM tl := by
              apply insertA_ltAll
              intro kv2 hm2
              obtain ⟨v3, hm3, _⟩ := mem_gyM hm2
              exact hall (kv2.1, v3) hm3
            simp [buildYInput.buildM, hbv, hbt, gy.gyM, hins]
      simp [buildYInput, this, gy]
  | hbad t => intro h; simp [gOK] at h
  | hoth s => intro h; simp [gOK] at h

theorem y2go_gy : ∀ g, rtState g = true → y2go (gy g) = g := by
  intro g
  induction g using govIndOn with
  | hnull => intro _; rfl
  | hbool b => intro _; rfl
  | hint i => intro _; rfl
  | huint u => intro h; simp [rtState] at h
  | hfloat f => intro _; rfl
  | hstr s => intro _; rfl
  | hlist xs ih => intro h; simp [rtState] at h
  | hmap kvs ih =>
      intro h
      have h' : kvSorted kvs = true ∧ rtState.rtM kvs = true := by
        simpa [rtState, Bool.and_eq_true] using h
      obtain ⟨hs, hm⟩ := h'
      have : y2go.goM (gy.gyM kvs) = kvs := by
        clear h
        induction kvs with
        | nil => rfl
        | cons kv tl iht =>
            obtain ⟨k, v⟩ := kv
            have hm' : noSlash k = true ∧ rtState v = true ∧ rtState.rtM tl = true := by
              simpa [rtState.rtM, Bool.and_eq_true, and_assoc] using hm
            obtain ⟨_, hv, htl⟩ := hm'
            have h1 := ih (k, v) (by simp) hv
            have h2 := iht (fun kv h2 => ih kv (by simp [h2])) (kvSorted_cons hs).1 htl
            simp [gy.gyM, y2go.goM, h1, h2]
      simp [gy, y2go, this]
  | hbad t => intro h; simp [rtState] at h
  | hoth s => intro h; simp [rtState] at h

theorem gy_y2go : ∀ y, yRT y = true → gy (y2go y) = y := by
  intro y
  induction y using yvIndOn with
  | hnull => intro _; rfl
  | hbool b => intro _; rfl
  | hlong i => intro _; rfl
  | hfloat f => intro _; rfl
  | hstr s => intro _; rfl
  | harr xs ih => intro h; simp [yRT] at h
  | hmap kvs ih =>
      intro h
      have h' : kvSorted kvs = true ∧ yRT.yrtM kvs = true := by
        simpa [yRT, Bool.and_eq_true] using h
      obtain ⟨hs, hm⟩ := h'
      have : gy.gyM (y2go.goM kvs) = kvs := by
        clear h
        induction kvs with
        | nil => rfl
        | cons kv tl iht =>
            obtain ⟨k, v⟩ := kv
            have hm' : noSlash k = true ∧ yRT v = true ∧ yRT.yrtM tl = true := by
              simpa [yRT.yrtM, Bool.and_eq_true, and_assoc] using hm
            obtain ⟨_, hv, htl⟩ := hm'
            have h1 := ih (k, v) (by simp) hv
            have h2 := iht (fun kv h2 => ih kv (by simp [h2])) (kvSorted_cons hs).1 htl
            simp [y2go.goM, gy.gyM, h1, h2]
      simp [y2go, gy, this]

theorem yRT_gy : ∀ g, rtState g = true → yRT (gy g) = true := by
  intro g
  induction g using govIndOn with
  | hnull => intro _; rfl
  | hbool b => intro _; rfl
  | hint i => intro _; rfl
  | huint u => intro h; simp [rtState] at h
  | hfloat f => intro _; rfl
  | hstr s => intro _; rfl
  | hlist xs ih => intro h; simp [rtState] at h
  | hmap kvs ih =>
      intro h
      have h' : kvSorted kvs = true ∧ rtState.rtM kvs = true := by
        simpa [rtState, Bool.and_eq_true] using h
      obtain ⟨hs, hm⟩ := h'
      have hrt : yRT.yrtM (gy.gyM kvs) = true := by
        clear h
        induction kvs with
        | nil => rfl
        | cons kv tl iht =>
            obtain ⟨k, v⟩ := kv
            have hm' : noSlash k = true ∧ rtState v = true ∧ rtState.rtM tl = true := by
              simpa [rtState.rtM, Bool.and_eq_true, and_assoc] using hm
            obtain ⟨hns, hv, htl⟩ := hm'
            have h1 := ih (k, v) (by simp) hv
            have h2 := iht (fun kv h2 => ih kv (by simp [h2])) (kvSorted_cons hs).1 htl
            simp [gy.gyM, yRT.yrtM, hns, h1, h2]
      simp [gy, yRT, kvSorted_gyM kvs hs, hrt]
  | hbad t => intro h; simp [rtState] at h
  | hoth s => intro h; simp [rtState] at h

theorem rtState_y2go : ∀ y, yRT y = true → rtState (y2go y) = true := by
  intro y
  induction y using yvIndOn with
  | hnull => intro _; rfl
  | hbool b => intro _; rfl
  | hlong i => intro _; rfl
  | hfloat f => intro _; rfl
  | hstr s => intro _; rfl
  | harr xs ih => intro h; simp [yRT] at h
  | hmap kvs ih =>
      intro h
      have h' : kvSorted kvs = true ∧ yRT.yrtM kvs = true := by
        simpa [yRT, Bool.and_eq_true] using h
      obtain ⟨hs, hm⟩ := h'
      have hrt : rtState.rtM (y2go.goM kvs) = true := by
        clear h
        induction kvs with
        | nil => rfl
        | cons kv tl iht =>
            obtain ⟨k, v⟩ := kv
            have hm' : noSlash k = true ∧ yRT v = true ∧ yRT.yrtM tl = true := by
              simpa [yRT.yrtM, Bool.and_eq_true, and_assoc] using hm
            obtain ⟨hns, hv, htl⟩ := hm'
            have h1 := ih (k, v) (by simp) hv
            have h2 := iht (fun kv h2 => ih kv (by simp [h2])) (kvSorted_cons hs).1 htl
            simp [y2go.goM, rtState.rtM, hns, h1, h2]
      simp [y2go, rtState, kvSorted_goM kvs hs, hrt]

/-! ### The Go patch applier

`applyOp`, `navigateToParent`, `ApplyOperations` and the state accessors from
`src/autosync/autosync.go`.  In-place mutation through yrs branch pointers
becomes functional rebuilding along the navigated spine.  Error sites map to
spec kinds as follows: "path segment not found in map" is `NotFound`, "invalid
array index" is `InvalidPath`, "out of bounds" is `IndexOutOfRange`, the
non-container navigation and type-assertion failures are `TypeMismatch`, and
the rejected operation kinds are `UnsupportedOperation`. -/

/-- A JSON Patch operation (`jsonpatch.JSONPatch`): `Operation`, `Path`,
`Value`, `From`.  An absent value is Go `nil`. -/
structure Op where
  op : String
  path : String
  value : GoV := GoV.gnull
  fromPath : String := ""
deriving DecidableEq

/-- Terminal key produced by `navigateToParent`: a map key, a parsed array
index, or the append marker. -/
inductive GoTerm where
  | key (s : String)
  | idx (n : Nat)
  | dash
deriving DecidableEq

/-- Container test (`ytype_kind` / output tag is `Y_MAP` or `Y_ARRAY`). -/
def isCont : YV → Bool
  | .ymap _ => true
  | .yarr _ => true
  | _ => false

/-- `navigateToParent` fused with the rebuild of the navigated spine: walks all
but the last segment (map steps by exact key, list steps by parsed `uint32`
index with bounds check, children must be containers), resolves the terminal
per parent kind, runs `act` on the parent, and rebuilds. -/
def goNavApply (v : YV) : List String → (YV → GoTerm → Except EK YV) → Except EK YV
  | [], _ => .error .invalidPath
  | [t], act =>
      match v with
      | .ymap _ => act v (.key t)
      | .yarr _ =>
          match parseU32 t with
          | some n => act v (.idx n)
          | none => if t = "-" then act v .dash else .error .invalidPath
      | _ => .error .typeMismatch
  | seg :: rest, act =>
      match v with
      | .ymap kvs =>
          match lookupA seg kvs with
          | none => .error .notFound
          | some c =>
              if isCont c then
                match goNavApply c rest act with
                | .ok c2 => .ok (.ymap (insertA seg c2 kvs))
                | .error e => .error e
              else .error .typeMismatch
      | .yarr xs =>
          match parseU32 seg with
          | none => .error .invalidPath
          | some i =>
              if h : i < xs.length then
                let c := xs.get ⟨i, h⟩
                if isCont c then
                  match goNavApply c rest act with
                  | .ok c2 => .ok (.yarr (xs.set i c2))
                  | .error e => .error e
                else .error .typeMismatch
              else .error .indexOutOfRange
      | _ => .error .typeMismatch

/-- `add` terminal semantics: map insert-or-overwrite; list insert at an index
in `[0, length]` (the `-` marker meaning `length`), shifting later elements. -/
def goAddAct (y : YV) : YV → GoTerm → Except EK YV
  | .ymap kvs, .key s => .ok (.ymap (insertA s y kvs))
  | .yarr xs, .idx n =>
      if n > xs.length then .error .indexOutOfRange
      else .ok (.yarr (List.insertIdx n y xs))
  | .yarr xs, .dash => .ok (.yarr (List.insertIdx xs.length y xs))
  | _, _ => .error .typeMismatch

/-- `remove` terminal semantics: map delete (`NotFound` when absent); list
delete at an in-range index. -/
def goRemoveAct : YV → GoTerm → Except EK YV
  | .ymap kvs, .key s =>
      match lookupA s kvs with
      | some _ => .ok (.ymap (eraseA s kvs))
      | none => .error .notFound
  | .yarr xs, .idx n =>
      if n < xs.length then .ok (.yarr (xs.eraseIdx n))
      else .error .indexOutOfRange
  | _, _ => .error .typeMismatch

/-- `replace` terminal semantics: map overwrite requiring existence; list
delete-then-insert at an in-range index. -/
def goReplaceAct (y : YV) : YV → GoTerm → Except EK YV
  | .ymap kvs, .key s =>
      match lookupA s kvs with
      | some _ => .ok (.ymap (insertA s y kvs))
      | none => .error .notFound
  | .yarr xs, .idx n =>
      if n < xs.length then .ok (.yarr (List.insertIdx n y (xs.eraseIdx n)))
      else .error .indexOutOfRange
  | _, _ => .error .typeMismatch

/-- The operation dispatch of `applyOp` after navigation: `add`/`replace`
convert the value first; `move`, `copy`, `test` and anything else hit the
`default` arm and are rejected as unsupported. -/
def opAct (o : Op) (parent : YV) (term : GoTerm) : Except EK YV :=
  match o.op with
  | "add" =>
      match buildYInput o.value with
      | .error e => .error e
      | .ok y => goAddAct y parent term
  | "remove" => goRemoveAct parent term
  | "replace" =>
      match buildYInput o.value with
      | .error e => .error e
      | .ok y => goReplaceAct y parent term
  | _ => .error .unsupportedOperation

/-- Non-root branch of `applyOp`: navigate to the parent, then dispatch. -/
def goApplyOpNR (doc : YV) (o : Op) (segs : List String) : Except EK YV :=
  goNavApply doc segs (opAct o)

/-- Insert the entries of a root-operation value map one by one
(`ymap_insert` loop); stops at the first conversion error, keeping the
partially mutated map (the write transaction is committed regardless). -/
def goRootEntries (kvs : List (String × YV)) :
    List (String × GoV) → List (String × YV) × Option EK
  | [] => (kvs, none)
  | (k, v) :: rest =>
      match buildYInput v with
      | .error e => (kvs, some e)
      | .ok y => goRootEntries (insertA k y kvs) rest

/-- Root branch of `applyOp` (empty path): `replace` clears the root map first
(`ymap_remove_all`) and accepts `nil` as an empty map; `add` requires a map
value; everything else is unsupported. -/
def goRootApply (kvs : List (String × YV)) (o : Op) : YV × Option EK :=
  match o.op with
  | "replace" =>
      match o.value with
      | .gmap m =>
          match goRootEntries [] m with
          | (kvs2, err) => (.ymap kvs2, err)
      | .gnull => (.ymap [], none)
      | _ => (.ymap kvs, some .typeMismatch)
  | "add" =>
      match o.value with
      | .gmap m =>
          match goRootEntries kvs m with
          | (kvs2, err) => (.ymap kvs2, err)
      | _ => (.ymap kvs, some .typeMismatch)
  | _ => (.ymap kvs, some .unsupportedOperation)

/-- One operation (`applyOp`): root operations are handled without navigation
(`ApplyOperations` has already checked the root branch is a map); otherwise
the path must start with `/` and is split into segments. -/
def goApplyOp (doc : YV) (o : Op) : YV × Option EK :=
  if o.path = "" then
    match doc with
    | .ymap kvs => goRootApply kvs o
    | _ => (doc, some .typeMismatch)
  else
    match goSplit o.path with
    | "" :: segs =>
        match goApplyOpNR doc o segs with
        | .ok d => (d, none)
        | .error e => (doc, some e)
    | _ => (doc, some .invalidPath)

/-- The batch loop of `ApplyOperations`: strictly ordered, stops at the first
error; earlier effects are kept (the transaction is committed on every exit
path, the engine has no rollback). -/
def goLoop (doc : YV) : List Op → YV × Option EK
  | [] => (doc, none)
  | o :: rest =>
      match goApplyOp doc o with
      | (d, none) => goLoop d rest
      | (d, some e) => (d, some e)

/-- `ApplyOperations`: checks that the root container is a map, then runs the
batch loop. -/
def goApplyOps (doc : YV) (ops : List Op) : YV × Option EK :=
  match doc with
  | .ymap _ => goLoop doc ops
  | _ => (doc, some .typeMismatch)

/-- `NewDoc`: a document whose root is an empty map. -/
def newDoc : YV := .ymap []

/-- `GetState` / `ToJSON`: serialize the root map; a non-map root fails.  The
Go code additionally replaces a `nil` unmarshal result by an empty map, so the
result of a successful call is always a concrete (possibly empty) entry
list. -/
def getState : YV → Except EK (List (String × GoV))
  | .ymap kvs => .ok (y2go.goM kvs)
  | _ => .error .typeMismatch

/-! ### StateDiffer

Modelled from the spec: the differ implementation (`deriveOps.js`, imported by
`autoSyncDoc.js`) is not part of the source tree, so the component is built
from section 4.2 of the specification: recursive per container pair; map keys
only in the new value are added, keys only in the old removed, common keys
with unequal sub-values recurse (or replace when the kinds differ or both are
primitive); lists match elements old-to-new by the identity function, emit
`move` for matched pairs at different positions (in an order safe under
repeated single-element shifts), `remove` for unmatched old elements
(descending, so earlier removals do not shift later ones), `add` for unmatched
new elements (ascending target positions), and recurse into matched pairs
whose content differs; primitive or mismatched-kind pairs are replaced
wholesale; equal values produce the empty patch. -/

/-- Decimal rendering of an index (fuel-based so it reduces in the kernel). -/
def natChars : Nat → Nat → List Char
  | 0, _ => []
  | fuel + 1, n =>
      if n < 10 then [Nat.digitChar n]
      else natChars fuel (n / 10) ++ [Nat.digitChar (n % 10)]

/-- Decimal rendering of a natural number. -/
def natStr (n : Nat) : String := List.asString (natChars (n + 1) n)

/-- Decimal rendering of an integer. -/
def intStr (i : Int) : String :=
  if i < 0 then "-" ++ natStr i.natAbs else natStr i.toNat

/-- Canonical structural encoding of a value, used by the default identity
function to match list elements. -/
def canonEnc : GoV → String
  | .gnull => "null"
  | .gbool b => if b then "bT" else "bF"
  | .gint i => "i:" ++ intStr i
  | .guint u => "u:" ++ natStr u
  | .gfloat f => "f:" ++ natStr f
  | .gstr s => "s:" ++ s
  | .glist xs => "[" ++ encL xs ++ "]"
  | .gmap kvs => "(" ++ encM kvs ++ ")"
  | .gbadmap t => "bm:" ++ natStr t
  | .gother s => "ok:" ++ s
where
  encL : List GoV → String
    | [] => ""
    | x :: xs => canonEnc x ++ ";" ++ encL xs
  encM : List (String × GoV) → String
    | [] => ""
    | (k, v) :: tl => k ++ "=" ++ canonEnc v ++ ";" ++ encM tl

/-- The default identity function of the spec: field `id` when the value is a
map containing it, else field `key`, else the canonical structural encoding of
the whole value. -/
def identOf (v : GoV) : String :=
  match v with
  | .gmap kvs =>
      match lookupA ("id") kvs with
      | some idv => canonEnc idv
      | none =>
          match lookupA ("key") kvs with
          | some kv => canonEnc kv
          | none => canonEnc v
  | _ => canonEnc v

/-- First unused index of the new list whose identity matches `s`. -/
def findMatchIdx (s : String) (used : List Nat) : Nat → List GoV → Option Nat
  | _, [] => none
  | j, x :: xs =>
      if identOf x == s && !(used.contains j) then some j
      else findMatchIdx s used (j + 1) xs

/-- Greedy old-to-new matching by identity: one optional new index per old
element, injective over the matched ones. -/
def assignMatches (old newl : List GoV) : List (Option Nat) :=
  go old []
where
  go : List GoV → List Nat → List (Option Nat)
    | [], _ => []
    | x :: xs, used =>
        match findMatchIdx (identOf x) used 0 newl with
        | some j => some j :: go xs (j :: used)
        | none => none :: go xs used

/-- Index of the minimal element (first occurrence). -/
def minIdx : List Nat → Option Nat
  | [] => none
  | x :: xs =>
      match minIdx xs with
      | none => some 0
      | some j => if x ≤ xs.getD j 0 then some 0 else some (j + 1)

/-- Selection-style move plan: repeatedly bring the element with the smallest
target position to the front of the not-yet-placed suffix.  Emitted pairs are
`(source position, destination position)` in the evolving array, so the plan
is safe under the repeated single-element shifts of `move` application. -/
def movesFor : Nat → List Nat → Nat → List (Nat × Nat)
  | 0, _, _ => []
  | _ + 1, [], _ => []
  | fuel + 1, seq, pos =>
      match minIdx seq with
      | none => []
      | some i =>
          let rest := seq.eraseIdx i
          if i = 0 then movesFor fuel rest (pos + 1)
          else (pos + i, pos) :: movesFor fuel rest (pos + 1)

/-- Indices of unmatched old elements. -/
def noneIdxs : Nat → List (Option Nat) → List Nat
  | _, [] => []
  | i, none :: tl => i :: noneIdxs (i + 1) tl
  | i, some _ :: tl => noneIdxs (i + 1) tl

/-- An internal patch operation with segment paths (rendered to JSON-Pointer
strings at the boundary). -/
structure SOp where
  op : String
  path : List String
  value : GoV := GoV.gnull
  fromP : List String := []
deriving DecidableEq

/-- Prefix an operation's paths with the segment of the container it lives
under. -/
def withPref (k : String) (s : SOp) : SOp :=
  SOp.mk s.op (k :: s.path) s.value (if s.fromP = [] then [] else k :: s.fromP)

/-- Removals of unmatched old elements, by descending index. -/
def listRemoves (m : List (Option Nat)) : List SOp :=
  (noneIdxs 0 m).reverse.map (fun i => SOp.mk ("remove") [natStr i] .gnull [])

/-- Moves for matched pairs at different positions. -/
def listMoves (m : List (Option Nat)) : List SOp :=
  let seq := m.filterMap id
  (movesFor seq.length seq 0).map (fun ab => SOp.mk ("move") [natStr ab.2] .gnull [natStr ab.1])

/-- Additions of unmatched new elements, ascending. -/
def listAdds (used : List Nat) : Nat → List GoV → List SOp
  | _, [] => []
  | j, x :: xs =>
      if used.contains j then listAdds used (j + 1) xs
      else SOp.mk ("add") [natStr j] x [] :: listAdds used (j + 1) xs

/-- Map-key additions: keys only present in the new value. -/
def mapAdds (o : List (String × GoV)) : List (String × GoV) → List SOp
  | [] => []
  | (k, v) :: tl =>
      (match lookupA k o with
       | none => [SOp.mk ("add") [k] v []]
       | some _ => []) ++ mapAdds o tl

/-- The recursive diff (see the section comment).  Emitted paths are relative
to the pair being diffed and are prefixed on the way out. -/
def diffVal : GoV → GoV → List SOp
  | .gmap o, .gmap n =>
      if GoV.gmap o = GoV.gmap n then [] else dOld o n ++ mapAdds o n
  | .glist o, .glist n =>
      if GoV.glist o = GoV.glist n then []
      else
        let m := assignMatches o n
        listRemoves m ++ listMoves m ++ listAdds (m.filterMap id) 0 n ++ dRecs o m n
  | oldV, newV => if oldV = newV then [] else [SOp.mk ("replace") [] newV []]
where
  dOld : List (String × GoV) → List (String × GoV) → List SOp
    | [], _ => []
    | (k, v) :: tl, n =>
        (match lookupA k n with
         | none => [SOp.mk ("remove") [k] .gnull []]
         | some v2 => (diffVal v v2).map (withPref k))
        ++ dOld tl n
  dRecs : List GoV → List (Option Nat) → List GoV → List SOp
    | [], _, _ => []
    | _ :: xs, none :: mm, n => dRecs xs mm n
    | x :: xs, some j :: mm, n =>
        (match n.get? j with
         | some y => (diffVal x y).map (withPref (natStr j))
         | none => []) ++ dRecs xs mm n
    | _ :: _, [], _ => []

/-- Render an internal operation as a wire operation (RFC6901 pointers; the
empty segment list is the root pointer). -/
def renderSeg (segs : List String) : String :=
  if segs = [] then "" else renderPtr segs

def renderOp (s : SOp) : Op :=
  Op.mk s.op (renderSeg s.path) s.value (renderSeg s.fromP)

/-- The StateDiffer entry point: ordered wire patch from `oldV` to `newV`. -/
def diffOps (oldV newV : GoV) : List Op := (diffVal oldV newV).map renderOp

/-- `UpdateToState` (`src/autosync/autosync.go`, lines 631-649): read the
current state, compute the patch with `jsonpatch.CreateJSONPatch(newState,
currentState)`, apply it in one batch with `ApplyOperations`.  The patch
computation lives in the external snorwin/jsonpatch Go module (not in this
repository), so it is abstracted as the `differ` parameter, applied in the
source's argument order (new state first); everything else is the source's
own control flow.  On full success the computed patch is returned; on any
failure — reading the state, computing the patch, or applying it — the
zero-value (empty) patch list is returned together with the error. -/
def updateToState (differ : GoV → GoV → Except EK (List Op)) (doc : YV)
    (newState : List (String × GoV)) : YV × List Op × Option EK :=
  match getState doc with
  | .error e => (doc, [], some e)
  | .ok curr =>
      match differ (.gmap newState) (.gmap curr) with
      | .error e => (doc, [], some e)
      | .ok ops =>
          match goApplyOps doc ops with
          | (doc2, none) => (doc2, ops, none)
          | (doc2, some e) => (doc2, [], some e)

/-! ### The JavaScript patch applier

`AutoSyncDoc.applyOperations` (`src/autoSyncDoc/autoSyncDoc.js`): supports
`add`, `remove`, `replace`, `move`, `copy`; unsupported operation names are
only warned about and skipped.  Paths are split dropping every empty segment.
The self-move guard (lines 134-139) rejects a destination that is a strict
descendant of the source (`path !== from && path.startsWith(from + '/')`) —
a destination equal to the source is not rejected.  Array segments go through
JS `Number(...)`; the embedding models canonical non-negative integer numerals
(anything else behaves as a failed container/element lookup).  A thrown error
aborts the remaining operations while earlier effects persist (the Yjs
transaction still commits them); a `move` whose target insert fails after the
source deletion is modelled as the error alone, a case no claim exercises. -/

/-- A patch operation as consumed by the JS applier. -/
structure JOp where
  op : String
  path : String
  value : GoV := GoV.gnull
  fromPath : String := ""
deriving DecidableEq

/-- `path.split('/').filter(s => s)`. -/
def jsSegments (p : String) : List String :=
  ((splitSlash p.toList).filter (fun s => s ≠ [])).map List.asString

/-- JS `Number(segment)` restricted to canonical non-negative integer
numerals. -/
def jsNum (s : String) : Option Nat :=
  match s.toList with
  | [] => none
  | cs => decAcc 0 cs

/-- Kernel-reducing model of `String.startsWith`. -/
def isPrefL : List Char → List Char → Bool
  | [], _ => true
  | _ :: _, [] => false
  | a :: as, b :: bs => a == b && isPrefL as bs

def strStartsWith (s pre : String) : Bool := isPrefL pre.toList s.toList

/-- `createNestedYType`: recursively lift a plain JSON value into `Y.Map` /
`Y.Array` containers (primitives pass through).  The `guint`, `gbadmap` and
`gother` arms are unreachable for values originating in JS. -/
def jsCreateNested : GoV → YV
  | .gnull => .ynull
  | .gbool b => .ybool b
  | .gint i => .ylong i
  | .guint u => .ylong (Int.ofNat u)
  | .gfloat f => .yfloat f
  | .gstr s => .ystr s
  | .glist xs => .yarr (cnL xs)
  | .gmap kvs => .ymap (cnM kvs)
  | .gbadmap _ => .ynull
  | .gother _ => .ynull
where
  cnL : List GoV → List YV
    | [] => []
    | x :: xs => jsCreateNested x :: cnL xs
  cnM : List (String × GoV) → List (String × YV)
    | [] => []
    | (k, v) :: tl => insertA k (jsCreateNested v) (cnM tl)

/-- Navigation to the parent container (read-only): each step must resolve to
a `Y.Map` or `Y.Array`; any failure is the single "Invalid or non-existent
container" throw. -/
def jsNavParent : YV → List String → Except EK YV
  | v, [] => .ok v
  | v, s :: rest =>
      match v with
      | .ymap kvs =>
          match lookupA s kvs with
          | some c => if isCont c then jsNavParent c rest else .error .typeMismatch
          | none => .error .typeMismatch
      | .yarr xs =>
          match jsNum s with
          | some i =>
              match xs.get? i with
              | some c => if isCont c then jsNavParent c rest else .error .typeMismatch
              | none => .error .typeMismatch
          | none => .error .typeMismatch
      | _ => .error .typeMismatch

/-- Navigation fused with mutation of the parent container, rebuilding the
spine. -/
def jsMutParent : YV → List String → (YV → Except EK YV) → Except EK YV
  | v, [], act => act v
  | v, s :: rest, act =>
      match v with
      | .ymap kvs =>
          match lookupA s kvs with
          | some c =>
              if isCont c then
                (jsMutParent c rest act).map (fun c2 => .ymap (insertA s c2 kvs))
              else .error .typeMismatch
          | none => .error .typeMismatch
      | .yarr xs =>
          match jsNum s with
          | some i =>
              match xs.get? i with
              | some c =>
                  if isCont c then
                    (jsMutParent c rest act).map (fun c2 => .yarr (xs.set i c2))
                  else .error .typeMismatch
              | none => .error .typeMismatch
          | none => .error .typeMismatch
      | _ => .error .typeMismatch

/-- `add` (also the target insert of `move`/`copy`): array index in
`[0, length]` inserts shifting later elements; map keys are set
unconditionally. -/
def jsAdd (val : YV) (last? : Option String) : YV → Except EK YV
  | .yarr xs =>
      match last? with
      | some t =>
          match jsNum t with
          | some k =>
              if k > xs.length then .error .indexOutOfRange
              else .ok (.yarr (List.insertIdx k val xs))
          | none => .error .invalidPath
      | none => .error .invalidPath
  | .ymap kvs =>
      match last? with
      | some t => .ok (.ymap (insertA t val kvs))
      | none => .error .invalidPath
  | _ => .error .typeMismatch

/-- `remove`: array index in `[0, length)` deletes one element; map keys must
exist. -/
def jsRemove (last? : Option String) : YV → Except EK YV
  | .yarr xs =>
      match last? with
      | some t =>
          match jsNum t with
          | some k =>
              if k < xs.length then .ok (.yarr (xs.eraseIdx k))
              else .error .indexOutOfRange
          | none => .error .invalidPath
      | none => .error .invalidPath
  | .ymap kvs =>
      match last? with
      | some t =>
          match lookupA t kvs with
          | some _ => .ok (.ymap (eraseA t kvs))
          | none => .error .notFound
      | none => .error .invalidPath
  | _ => .error .typeMismatch

/-- `replace`: array delete-then-insert at an in-range index; map keys must
exist. -/
def jsReplace (val : YV) (last? : Option String) : YV → Except EK YV
  | .yarr xs =>
      match last? with
      | some t =>
          match jsNum t with
          | some k =>
              if k < xs.length then .ok (.yarr (List.insertIdx k val (xs.eraseIdx k)))
              else .error .indexOutOfRange
          | none => .error .invalidPath
      | none => .error .invalidPath
  | .ymap kvs =>
      match last? with
      | some t =>
          match lookupA t kvs with
          | some _ => .ok (.ymap (insertA t val kvs))
          | none => .error .notFound
      | none => .error .invalidPath
  | _ => .error .typeMismatch

/-- `move` source handling: navigate to the source parent, check existence
(array bounds / map key), read the value (`toJSON` detaches it) and delete it;
returns the detached value and the updated tree. -/
def jsTakeAt : YV → List String → Option String → Except EK (YV × YV)
  | v, [], last? =>
      match v with
      | .yarr xs =>
          match last? with
          | some t =>
              match jsNum t with
              | some k =>
                  match xs.get? k with
                  | some c => .ok (c, .yarr (xs.eraseIdx k))
                  | none => .error .indexOutOfRange
              | none => .error .invalidPath
          | none => .error .invalidPath
      | .ymap kvs =>
          match last? with
          | some t =>
              match lookupA t kvs with
              | some c => .ok (c, .ymap (eraseA t kvs))
              | none => .error .notFound
          | none => .error .invalidPath
      | _ => .error .typeMismatch
  | v, s :: rest, last? =>
      match v with
      | .ymap kvs =>
          match lookupA s kvs with
          | some c =>
              if isCont c then
                (jsTakeAt c rest last?).map (fun p => (p.1, .ymap (insertA s p.2 kvs)))
              else .error .typeMismatch
          | none => .error .typeMismatch
      | .yarr xs =>
          match jsNum s with
          | some i =>
              match xs.get? i with
              | some c =>
                  if isCont c then
                    (jsTakeAt c rest last?).map (fun p => (p.1, .yarr (xs.set i p.2)))
                  else .error .typeMismatch
              | none => .error .typeMismatch
          | none => .error .typeMismatch
      | _ => .error .typeMismatch

/-- `copy` source handling: like the `move` source but the source is left
untouched; the destination receives an independently constructed tree. -/
def jsReadAt : YV → List String → Option String → Except EK YV
  | v, [], last? =>
      match v with
      | .yarr xs =>
          match last? with
          | some t =>
              match jsNum t with
              | some k =>
                  match xs.get? k with
                  | some c => .ok c
                  | none => .error .indexOutOfRange
              | none => .error .invalidPath
          | none => .error .invalidPath
      | .ymap kvs =>
          match last? with
          | some t =>
              match lookupA t kvs with
              | some c => .ok c
              | none => .error .notFound
          | none => .error .invalidPath
      | _ => .error .typeMismatch
  | v, s :: rest, last? =>
      match v with
      | .ymap kvs =>
          match lookupA s kvs with
          | some c => if isCont c then jsReadAt c rest last? else .error .typeMismatch
          | none => .error .typeMismatch
      | .yarr xs =>
          match jsNum s with
          | some i =>
              match xs.get? i with
              | some c => if isCont c then jsReadAt c rest last? else .error .typeMismatch
              | none => .error .typeMismatch
          | none => .error .typeMismatch
      | _ => .error .typeMismatch

/-- One JS operation: target-parent navigation happens before the switch; the
`move` case then applies the strict-descendant guard, detaches the source, and
re-inserts at the destination; unsupported names are skipped. -/
def jsApplyOp (root : YV) (o : JOp) : Except EK YV :=
  let segs := jsSegments o.path
  let parentSegs := segs.dropLast
  let last? := segs.getLast?
  match jsNavParent root parentSegs with
  | .error e => .error e
  | .ok _ =>
      match o.op with
      | "add" => jsMutParent root parentSegs (jsAdd (jsCreateNested o.value) last?)
      | "remove" => jsMutParent root parentSegs (jsRemove last?)
      | "replace" => jsMutParent root parentSegs (jsReplace (jsCreateNested o.value) last?)
      | "move" =>
          if (o.path != o.fromPath) && strStartsWith o.path (o.fromPath ++ "/") then
            .error .invalidOperation
          else
            let fsegs := jsSegments o.fromPath
            match jsTakeAt root fsegs.dropLast fsegs.getLast? with
            | .error e => .error e
            | .ok pr => jsMutParent pr.2 parentSegs (jsAdd pr.1 last?)
      | "copy" =>
          let fsegs := jsSegments o.fromPath
          match jsReadAt root fsegs.dropLast fsegs.getLast? with
          | .error e => .error e
          | .ok val => jsMutParent root parentSegs (jsAdd val last?)
      | _ => .ok root

/-- The JS batch: one transaction; an exception aborts the remaining
operations while the effects of earlier ones persist. -/
def jsApplyOps (root : YV) : List JOp → YV × Option EK
  | [] => (root, none)
  | o :: rest =>
      match jsApplyOp root o with
      | .ok r => jsApplyOps r rest
      | .error e => (root, some e)

/-- Wire-to-JS operation carrier (the two pipelines share the RFC6902
format). -/
def opToJOp (o : Op) : JOp := JOp.mk o.op o.path o.value o.fromPath

/-! ### Round-trip machinery

Support for the C1 round-trip theorem: a segment-level view of the Go batch
(`sBatch`), lifting of child-relative operations under a map key, and the
correctness of the map diff walk. -/

theorem lookupA_mem {α : Type} {k : String} {v : α} :
    ∀ {l : List (String × α)}, lookupA k l = some v → (k, v) ∈ l := by
  intro l
  induction l with
  | nil => intro h; simp [lookupA] at h
  | cons kv tl ih =>
      obtain ⟨k2, v2⟩ := kv
      intro h
      by_cases he : k = k2
      · subst he
        simp only [lookupA, if_true] at h
        simp [lookupA] at h
        simp [h.symm]
      · simp only [lookupA, if_neg he] at h
        simp [ih h]

theorem lookupA_self_of_sorted {α : Type} {kv : String × α} :
    ∀ {l : List (String × α)}, kvSorted l = true → kv ∈ l →
    lookupA kv.1 l = some kv.2 := by
  intro l
  induction l with
  | nil => intro _ h; simp at h
  | cons kv2 tl ih =>
      obtain ⟨k2, v2⟩ := kv2
      intro hs hm
      obtain ⟨htl, hall⟩ := kvSorted_cons hs
      rcases List.mem_cons.mp hm with h1 | h1
      · rw [h1]; simp [lookupA]
      · have hne : kv.1 ≠ k2 := (keyLt_ne (hall kv h1)).symm
        simp only [lookupA, if_neg hne]
        exact ih htl h1

theorem insertA_lookup_eq {α : Type} {k : String} {v : α} :
    ∀ {l : List (String × α)}, kvSorted l = true → lookupA k l = some v →
    insertA k v l = l := by
  intro l
  induction l with
  | nil => intro _ h; simp [lookupA] at h
  | cons kv tl ih =>
      obtain ⟨k2, v2⟩ := kv
      intro hs hl
      by_cases he : k = k2
      · subst he
        simp [lookupA] at hl
        simp [insertA, hl]
      · simp only [lookupA, if_neg he] at hl
        obtain ⟨htl, hall⟩ := kvSorted_cons hs
        have hmem := lookupA_mem hl
        have hlt : keyLt k2 k = true := hall (k, v) hmem
        have hnlt : keyLt k k2 ≠ true := by
          intro h2
          exact absurd (keyLt_trans h2 hlt) (by simp [keyLt_irrefl])
        simp only [insertA, if_neg he, if_neg hnlt]
        rw [ih htl hl]

theorem insertA_insertA {α : Type} (k : String) (v w : α) :
    ∀ l : List (String × α), insertA k v (insertA k w l) = insertA k v l := by
  intro l
  induction l with
  | nil => simp [insertA]
  | cons kv tl ih =>
      obtain ⟨k2, v2⟩ := kv
      by_cases he : k = k2
      · simp [insertA, he]
      · by_cases h2 : keyLt k k2 = true
        · simp [insertA, he, h2]
        · simp [insertA, he, h2, ih]

theorem lookupA_goM (k : String) :
    ∀ l : List (String × YV), lookupA k (y2go.goM l) = Option.map y2go (lookupA k l) := by
  intro l
  induction l with
  | nil => rfl
  | cons kv tl ih =>
      obtain ⟨k2, v2⟩ := kv
      by_cases he : k = k2
      · simp [y2go.goM, lookupA, he]
      · simp [y2go.goM, lookupA, he, ih]

theorem lookupA_gyM (k : String) :
    ∀ l : List (String × GoV), lookupA k (gy.gyM l) = Option.map gy (lookupA k l) := by
  intro l
  induction l with
  | nil => rfl
  | cons kv tl ih =>
      obtain ⟨k2, v2⟩ := kv
      by_cases he : k = k2
      · simp [gy.gyM, lookupA, he]
      · simp [gy.gyM, lookupA, he, ih]

theorem rtM_mem {k : String} {v : GoV} :
    ∀ {l : List (String × GoV)}, rtState.rtM l = true → (k, v) ∈ l →
    noSlash k = true ∧ rtState v = true := by
  intro l
  induction l with
  | nil => intro _ h; simp at h
  | cons kv tl ih =>
      obtain ⟨k2, v2⟩ := kv
      intro hm hmem
      have hm' : noSlash k2 = true ∧ rtState v2 = true ∧ rtState.rtM tl = true := by
        simpa [rtState.rtM, Bool.and_eq_true, and_assoc] using hm
      rcases List.mem_cons.mp hmem with h1 | h1
      · injection h1 with hk hv
        subst hk; subst hv
        exact ⟨hm'.1, hm'.2.1⟩
      · exact ih hm'.2.2 h1

theorem yrtM_mem {k : String} {v : YV} :
    ∀ {l : List (String × YV)}, yRT.yrtM l = true → (k, v) ∈ l →
    noSlash k = true ∧ yRT v = true := by
  intro l
  induction l with
  | nil => intro _ h; simp at h
  | cons kv tl ih =>
      obtain ⟨k2, v2⟩ := kv
      intro hm hmem
      have hm' : noSlash k2 = true ∧ yRT v2 = true ∧ yRT.yrtM tl = true := by
        simpa [yRT.yrtM, Bool.and_eq_true, and_assoc] using hm
      rcases List.mem_cons.mp hmem with h1 | h1
      · injection h1 with hk hv
        subst hk; subst hv
        exact ⟨hm'.1, hm'.2.1⟩
      · exact ih hm'.2.2 h1

theorem diffVal_self : ∀ x : GoV, diffVal x x = [] := by
  intro x
  cases x <;> simp [diffVal]

/-- One diff operation applied through the Go non-root path (the operation
name and value travel in the rendered carrier; the segments are the internal
path). -/
def applyS (d : YV) (s : SOp) : Except EK YV :=
  goApplyOpNR d (renderOp s) s.path

/-- Segment-level batch, success-threading like `goLoop`. -/
def sBatch : YV → List SOp → Except EK YV
  | d, [] => .ok d
  | d, s :: rest =>
      match applyS d s with
      | .ok d2 => sBatch d2 rest
      | .error e => .error e

theorem sBatch_append {d d1 : YV} {a : List SOp} (b : List SOp)
    (h : sBatch d a = .ok d1) : sBatch d (a ++ b) = sBatch d1 b := by
  induction a generalizing d with
  | nil =>
      simp only [sBatch] at h
      injection h with h
      rw [List.nil_append, h]
  | cons s rest ih =>
      simp only [sBatch] at h ⊢
      cases hs : applyS d s with
      | ok d2 =>
          rw [hs] at h
          exact ih h
      | error e => rw [hs] at h; exact absurd h (by simp)

theorem opAct_only {o o2 : Op} (h1 : o.op = o2.op) (h2 : o.value = o2.value) :
    opAct o = opAct o2 := by
  funext parent term
  unfold opAct
  rw [h1, h2]

theorem goNavApply_step_ok {k : String} {D : List (String × YV)} {c v : YV}
    {segs : List String} {act : YV → GoTerm → Except EK YV}
    (hne : segs ≠ []) (hl : lookupA k D = some c) (hc : isCont c = true)
    (hv : goNavApply c segs act = .ok v) :
    goNavApply (.ymap D) (k :: segs) act = .ok (.ymap (insertA k v D)) := by
  cases segs with
  | nil => exact absurd rfl hne
  | cons s rest =>
      show goNavApply (.ymap D) (k :: s :: rest) act = _
      simp only [goNavApply]
      rw [hl]
      simp only [hc, if_true, hv]

theorem goAddAct_map {y w : YV} {m : List (String × YV)} {t : GoTerm}
    (h : goAddAct y (.ymap m) t = .ok w) : ∃ m2, w = .ymap m2 := by
  cases t with
  | key s =>
      simp only [goAddAct] at h
      injection h with h
      exact ⟨insertA s y m, h.symm⟩
  | idx n => simp [goAddAct] at h
  | dash => simp [goAddAct] at h

theorem goRemoveAct_map {w : YV} {m : List (String × YV)} {t : GoTerm}
    (h : goRemoveAct (.ymap m) t = .ok w) : ∃ m2, w = .ymap m2 := by
  cases t with
  | key s =>
      simp only [goRemoveAct] at h
      cases hl : lookupA s m with
      | some c =>
          rw [hl] at h
          injection h with h
          exact ⟨eraseA s m, h.symm⟩
      | none => rw [hl] at h; exact absurd h (by simp)
  | idx n => simp [goRemoveAct] at h
  | dash => simp [goRemoveAct] at h

theorem goReplaceAct_map {y w : YV} {m : List (String × YV)} {t : GoTerm}
    (h : goReplaceAct y (.ymap m) t = .ok w) : ∃ m2, w = .ymap m2 := by
  cases t with
  | key s =>
      simp only [goReplaceAct] at h
      cases hl : lookupA s m with
      | some c =>
          rw [hl] at h
          injection h with h
          exact ⟨insertA s y m, h.symm⟩
      | none => rw [hl] at h; exact absurd h (by simp)
  | idx n => simp [goReplaceAct] at h
  | dash => simp [goReplaceAct] at h

theorem opAct_map {o : Op} {w : YV} {m : List (String × YV)} {t : GoTerm}
    (h : opAct o (.ymap m) t = .ok w) : ∃ m2, w = .ymap m2 := by
  unfold opAct at h
  split at h
  · cases hb : buildYInput o.value with
    | error e => rw [hb] at h; exact absurd h (by simp)
    | ok y => rw [hb] at h; exact goAddAct_map h
  · exact goRemoveAct_map h
  · cases hb : buildYInput o.value with
    | error e => rw [hb] at h; exact absurd h (by simp)
    | ok y => rw [hb] at h; exact goReplaceAct_map h
  · exact absurd h (by simp)

theorem goNavApply_map {kvs : List (String × YV)} {segs : List String}
    {act : YV → GoTerm → Except EK YV} {v : YV}
    (hact : ∀ m t w, act (.ymap m) t = .ok w → ∃ m2, w = .ymap m2)
    (h : goNavApply (.ymap kvs) segs act = .ok v) : ∃ kvs2, v = .ymap kvs2 := by
  cases segs with
  | nil => simp [goNavApply] at h
  | cons s rest =>
      cases rest with
      | nil =>
          simp only [goNavApply] at h
          exact hact kvs (.key s) v h
      | cons s2 rest2 =>
          simp only [goNavApply] at h
          cases hl : lookupA s kvs with
          | none => rw [hl] at h; exact absurd h (by simp)
          | some c =>
              rw [hl] at h
              by_cases hc : isCont c = true
              · simp only [hc, if_true] at h
                cases hn : goNavApply c (s2 :: rest2) act with
                | ok c2 =>
                    rw [hn] at h
                    injection h with h
                    exact ⟨insertA s c2 kvs, h.symm⟩
                | error e => rw [hn] at h; exact absurd h (by simp)
              · simp only [hc, if_false] at h
                exact absurd h (by simp)

theorem goApplyOpNR_map {kvs : List (String × YV)} {o : Op} {segs : List String} {v : YV}
    (h : goApplyOpNR (.ymap kvs) o segs = .ok v) : ∃ kvs2, v = .ymap kvs2 :=
  goNavApply_map (fun _ _ _ hw => opAct_map hw) h

theorem sBatch_pref : ∀ (ops : List SOp) (ckvs : List (String × YV)) (c2 : YV)
    (D : List (String × YV)) (k : String),
    sBatch (.ymap ckvs) ops = .ok c2 →
    (∀ s ∈ ops, s.path ≠ []) →
    kvSorted D = true →
    lookupA k D = some (.ymap ckvs) →
    sBatch (.ymap D) (ops.map (withPref k)) = .ok (.ymap (insertA k c2 D)) := by
  intro ops
  induction ops with
  | nil =>
      intro ckvs c2 D k h _ hsort hl
      simp only [sBatch] at h
      injection h with h
      rw [← h, insertA_lookup_eq hsort hl]
      rfl
  | cons s rest ih =>
      intro ckvs c2 D k h hpaths hsort hl
      simp only [sBatch] at h
      cases hs : applyS (.ymap ckvs) s with
      | error e => rw [hs] at h; exact absurd h (by simp)
      | ok c1 =>
          rw [hs] at h
          obtain ⟨ckvs1, rfl⟩ := goApplyOpNR_map hs
          have hstep : applyS (.ymap D) (withPref k s) =
              .ok (.ymap (insertA k (.ymap ckvs1) D)) := by
            unfold applyS goApplyOpNR
            have hact : opAct (renderOp (withPref k s)) = opAct (renderOp s) :=
              opAct_only rfl rfl
            rw [show (withPref k s).path = k :: s.path from rfl, hact]
            exact goNavApply_step_ok (hpaths s (by simp)) hl rfl hs
          simp only [List.map_cons, sBatch, hstep]
          have := ih ckvs1 c2 (insertA k (.ymap ckvs1) D) k h
            (fun t ht => hpaths t (by simp [ht]))
            (kvSorted_insertA k _ D hsort)
            (lookupA_insertA_self k _ D)
          rw [this, insertA_insertA]

theorem applyS_remove_key {E : List (String × YV)} {k : String} {w : YV}
    (hl : lookupA k E = some w) :
    applyS (.ymap E) (SOp.mk ("remove") [k] .gnull []) = .ok (.ymap (eraseA k E)) := by
  unfold applyS goApplyOpNR
  show goNavApply _ [k] _ = _
  simp only [goNavApply, opAct, renderOp, goRemoveAct, hl]

theorem applyS_add_key {E : List (String × YV)} {k : String} {g : GoV} {y : YV}
    (hb : buildYInput g = .ok y) :
    applyS (.ymap E) (SOp.mk ("add") [k] g []) = .ok (.ymap (insertA k y E)) := by
  unfold applyS goApplyOpNR
  show goNavApply _ [k] _ = _
  simp only [goNavApply, opAct, renderOp, hb, goAddAct]

theorem applyS_replace_key {E : List (String × YV)} {k : String} {g : GoV} {y w : YV}
    (hl : lookupA k E = some w) (hb : buildYInput g = .ok y) :
    applyS (.ymap E) (SOp.mk ("replace") [k] g []) = .ok (.ymap (insertA k y E)) := by
  unfold applyS goApplyOpNR
  show goNavApply _ [k] _ = _
  simp only [goNavApply, opAct, renderOp, hb, goReplaceAct, hl]

theorem dOld_path_ne : ∀ (o n : List (String × GoV)) (s : SOp),
    s ∈ diffVal.dOld o n → s.path ≠ [] := by
  intro o
  induction o with
  | nil => intro n s h; simp [diffVal.dOld] at h
  | cons kv tl ih =>
      obtain ⟨k, v⟩ := kv
      intro n s h
      simp only [diffVal.dOld] at h
      rcases List.mem_append.mp h with h1 | h1
      · cases hl : lookupA k n with
        | none =>
            rw [hl] at h1
            rcases List.mem_singleton.mp h1 with rfl
            simp
        | some v2 =>
            rw [hl] at h1
            rcases List.mem_map.mp h1 with ⟨t, _, rfl⟩
            simp [withPref]
      · exact ih n s h1

theorem mapAdds_path_ne : ∀ (o n : List (String × GoV)) (s : SOp),
    s ∈ mapAdds o n → s.path ≠ [] := by
  intro o n
  induction n with
  | nil => intro s h; simp [mapAdds] at h
  | cons kv tl ih =>
      obtain ⟨k, v⟩ := kv
      intro s h
      simp only [mapAdds] at h
      rcases List.mem_append.mp h with h1 | h1
      · cases hl : lookupA k o with
        | none =>
            rw [hl] at h1
            rcases List.mem_singleton.mp h1 with rfl
            simp
        | some v2 => rw [hl] at h1; simp at h1
      · exact ih s h1

/-- The per-key diff correctness statement: applying the (prefixed) diff from
the document's child at `k` towards target `g` rewrites exactly that entry to
the converted target. -/
def KeyDiffProp (g : GoV) : Prop :=
  rtState g = true →
  ∀ (vY : YV) (k : String) (D : List (String × YV)),
    kvSorted D = true → lookupA k D = some vY → yRT vY = true →
    sBatch (.ymap D) ((diffVal (y2go vY) g).map (withPref k)) =
      .ok (.ymap (insertA k (gy g) D))

theorem keyDiff_of_eq {g : GoV} {vY : YV} {k : String} {D : List (String × YV)}
    (heq : y2go vY = g) (hyv : yRT vY = true)
    (hsD : kvSorted D = true) (hl : lookupA k D = some vY) :
    sBatch (.ymap D) ((diffVal (y2go vY) g).map (withPref k)) =
      .ok (.ymap (insertA k (gy g) D)) := by
  rw [heq, diffVal_self]
  have hgy : gy g = vY := by rw [← heq, gy_y2go vY hyv]
  rw [hgy, insertA_lookup_eq hsD hl]
  rfl

theorem keyDiff_of_repl {g : GoV} {vY : YV} {k : String} {D : List (String × YV)}
    (hrt : rtState g = true) (hl : lookupA k D = some vY)
    (harm : diffVal (y2go vY) g = [SOp.mk ("replace") [] g []]) :
    sBatch (.ymap D) ((diffVal (y2go vY) g).map (withPref k)) =
      .ok (.ymap (insertA k (gy g) D)) := by
  rw [harm]
  have hb : buildYInput g = .ok (gy g) := buildYInput_eq_gy g (rtState_gOK g hrt)
  have hw : withPref k (SOp.mk ("replace") [] g []) = SOp.mk ("replace") [k] g [] := rfl
  simp only [List.map_cons, List.map_nil, hw, sBatch,
    applyS_replace_key hl hb]

theorem walk_dOld :
    ∀ (rem : List (String × YV)) (n : List (String × GoV)) (E : List (String × YV)),
    kvSorted rem = true →
    kvSorted E = true →
    (∀ kv ∈ rem, lookupA kv.1 E = some kv.2) →
    (∀ kv ∈ rem, yRT kv.2 = true) →
    rtState.rtM n = true →
    (∀ kv ∈ n, KeyDiffProp (Prod.snd kv)) →
    ∃ E2, sBatch (.ymap E) (diffVal.dOld (y2go.goM rem) n) = .ok (.ymap E2) ∧
      kvSorted E2 = true ∧
      (∀ k2, lookupA k2 E2 =
        if (lookupA k2 rem).isSome then Option.map gy (lookupA k2 n)
        else lookupA k2 E) := by
  intro rem
  induction rem with
  | nil =>
      intro n E _ hE _ _ _ _
      refine ⟨E, ?_, hE, ?_⟩
      · rfl
      · intro k2; simp [lookupA]
  | cons kv tl ih =>
      obtain ⟨k2, w⟩ := kv
      intro n E hsrem hE hlook hyrt hn hKD
      obtain ⟨htl, hall⟩ := kvSorted_cons hsrem
      have hk2tl : lookupA k2 tl = none := lookupA_none_of_ltAll hall
      have hops : diffVal.dOld (y2go.goM ((k2, w) :: tl)) n =
          (match lookupA k2 n with
           | none => [SOp.mk ("remove") [k2] .gnull []]
           | some v2 => (diffVal (y2go w) v2).map (withPref k2))
          ++ diffVal.dOld (y2go.goM tl) n := rfl
      rw [hops]
      cases hln : lookupA k2 n with
      | none =>
          have hlw : lookupA k2 E = some w := hlook (k2, w) (by simp)
          have hstep : sBatch (.ymap E) [SOp.mk ("remove") [k2] .gnull []] =
              .ok (.ymap (eraseA k2 E)) := by
            simp only [sBatch, applyS_remove_key hlw]
          obtain ⟨E2, hb, hs2, hl2⟩ := ih n (eraseA k2 E) htl
            (kvSorted_eraseA k2 E hE)
            (fun kv hm => by
              have hne : kv.1 ≠ k2 := (keyLt_ne (hall kv hm)).symm
              rw [lookupA_eraseA_ne hne]
              exact hlook kv (by simp [hm]))
            (fun kv hm => hyrt kv (by simp [hm])) hn hKD
          refine ⟨E2, ?_, hs2, ?_⟩
          · rw [sBatch_append _ hstep, hb]
          · intro k'
            by_cases hk' : k' = k2
            · subst hk'
              rw [hl2 k']
              simp only [lookupA, if_pos rfl, hk2tl, hln]
              simp [lookupA_eraseA_self k' E hE, hk2tl]
            · rw [hl2 k']
              simp only [lookupA, if_neg hk']
              by_cases hsome : (lookupA k' tl).isSome
              · simp [hsome]
              · simp only [hsome, if_false]
                rw [lookupA_eraseA_ne hk']
      | some v2 =>
          have hmem : (k2, v2) ∈ n := lookupA_mem hln
          have hrtv2 : rtState v2 = true := (rtM_mem hn hmem).2
          have hlw : lookupA k2 E = some w := hlook (k2, w) (by simp)
          have hyw : yRT w = true := hyrt (k2, w) (by simp)
          have hstep : sBatch (.ymap E) ((diffVal (y2go w) v2).map (withPref k2)) =
              .ok (.ymap (insertA k2 (gy v2) E)) :=
            hKD (k2, v2) hmem hrtv2 w k2 E hE hlw hyw
          obtain ⟨E2, hb, hs2, hl2⟩ := ih n (insertA k2 (gy v2) E) htl
            (kvSorted_insertA k2 _ E hE)
            (fun kv hm => by
              have hne : kv.1 ≠ k2 := (keyLt_ne (hall kv hm)).symm
              rw [lookupA_insertA_ne _ hne]
              exact hlook kv (by simp [hm]))
            (fun kv hm => hyrt kv (by simp [hm])) hn hKD
          refine ⟨E2, ?_, hs2, ?_⟩
          · rw [sBatch_append _ hstep, hb]
          · intro k'
            by_cases hk' : k' = k2
            · subst hk'
              rw [hl2 k']
              simp only [lookupA, if_pos rfl, hk2tl, hln]
              simp [hk2tl, lookupA_insertA_self]
            · rw [hl2 k']
              simp only [lookupA, if_neg hk']
              by_cases hsome : (lookupA k' tl).isSome
              · simp [hsome]
              · simp only [hsome, if_false]
                rw [lookupA_insertA_ne _ hk']

theorem walk_adds :
    ∀ (nrem : List (String × GoV)) (o : List (String × GoV)) (E : List (String × YV)),
    kvSorted nrem = true →
    kvSorted E = true →
    rtState.rtM nrem = true →
    ∃ E2, sBatch (.ymap E) (mapAdds o nrem) = .ok (.ymap E2) ∧
      kvSorted E2 = true ∧
      (∀ k2, lookupA k2 E2 =
        match lookupA k2 nrem, lookupA k2 o with
        | some v2, none => some (gy v2)
        | _, _ => lookupA k2 E) := by
  intro nrem
  induction nrem with
  | nil =>
      intro o E _ hE _
      refine ⟨E, rfl, hE, ?_⟩
      intro k2
      simp [lookupA]
  | cons kv tl ih =>
      obtain ⟨k3, v3⟩ := kv
      intro o E hsn hE hrt
      obtain ⟨htl, hall⟩ := kvSorted_cons hsn
      have hk3tl : lookupA k3 tl = none := lookupA_none_of_ltAll hall
      have hrt' : noSlash k3 = true ∧ rtState v3 = true ∧ rtState.rtM tl = true := by
        simpa [rtState.rtM, Bool.and_eq_true, and_assoc] using hrt
      have hops : mapAdds o ((k3, v3) :: tl) =
          (match lookupA k3 o with
           | none => [SOp.mk ("add") [k3] v3 []]
           | some _ => [])
          ++ mapAdds o tl := rfl
      rw [hops]
      cases hlo : lookupA k3 o with
      | none =>
          have hb : buildYInput v3 = .ok (gy v3) :=
            buildYInput_eq_gy v3 (rtState_gOK v3 hrt'.2.1)
          have hstep : sBatch (.ymap E) [SOp.mk ("add") [k3] v3 []] =
              .ok (.ymap (insertA k3 (gy v3) E)) := by
            simp only [sBatch, applyS_add_key hb]
          obtain ⟨E2, hbt, hs2, hl2⟩ := ih o (insertA k3 (gy v3) E) htl
            (kvSorted_insertA k3 _ E hE) hrt'.2.2
          refine ⟨E2, ?_, hs2, ?_⟩
          · rw [sBatch_append _ hstep, hbt]
          · intro k'
            by_cases hk' : k' = k3
            · subst hk'
              rw [hl2 k']
              simp only [lookupA, if_pos rfl, hk3tl, hlo]
              simp [hk3tl, lookupA_insertA_self]
            · rw [hl2 k']
              simp only [lookupA, if_neg hk']
              cases h1 : lookupA k' tl <;> cases h2 : lookupA k' o <;>
                simp [lookupA_insertA_ne _ hk']
      | some v4 =>
          obtain ⟨E2, hbt, hs2, hl2⟩ := ih o E htl hE hrt'.2.2
          refine ⟨E2, ?_, hs2, ?_⟩
          · simpa using hbt
          · intro k'
            by_cases hk' : k' = k3
            · subst hk'
              rw [hl2 k']
              simp only [lookupA, if_pos rfl, hk3tl, hlo]
              simp [hk3tl]
            · rw [hl2 k']
              simp only [lookupA, if_neg hk']

/-- Composed map-pair batch: the diff of a canonical document map against a
round-trippable target map applies cleanly and produces exactly the converted
target.  The per-key property for the target's values is a hypothesis, closed
by `keyDiff` below. -/
theorem mapPair_batch (ykvs : List (String × YV)) (n : List (String × GoV))
    (hykvs : yRT (.ymap ykvs) = true) (hnrt : rtState (.gmap n) = true)
    (hKD : ∀ kv ∈ n, KeyDiffProp (Prod.snd kv)) :
    sBatch (.ymap ykvs)
      (diffVal.dOld (y2go.goM ykvs) n ++ mapAdds (y2go.goM ykvs) n) =
      .ok (.ymap (gy.gyM n)) := by
  have hn : kvSorted n = true ∧ rtState.rtM n = true := by
    simpa [rtState, Bool.and_eq_true] using hnrt
  have hyv' : kvSorted ykvs = true ∧ yRT.yrtM ykvs = true := by
    simpa [yRT, Bool.and_eq_true] using hykvs
  obtain ⟨E1, hb1, hs1, hlk1⟩ := walk_dOld ykvs n ykvs hyv'.1 hyv'.1
    (fun kv hm => lookupA_self_of_sorted hyv'.1 hm)
    (fun kv hm => (yrtM_mem hyv'.2 hm).2)
    hn.2 hKD
  obtain ⟨E2, hb2, hs2, hlk2⟩ := walk_adds n (y2go.goM ykvs) E1 hn.1 hs1 hn.2
  have hE2 : E2 = gy.gyM n := by
    apply lookupA_ext E2 (gy.gyM n) hs2 (kvSorted_gyM n hn.1)
    intro k2
    rw [lookupA_gyM, hlk2 k2]
    cases hn2 : lookupA k2 n with
    | some v2 =>
        cases ho2 : lookupA k2 (y2go.goM ykvs) with
        | none => simp
        | some v3 =>
            have hsy : (lookupA k2 ykvs).isSome = true := by
              rw [lookupA_goM] at ho2
              cases hy : lookupA k2 ykvs with
              | none => rw [hy] at ho2; simp at ho2
              | some _ => simp
            rw [hlk1 k2]
            simp [hsy, hn2]
    | none =>
        cases ho2 : lookupA k2 (y2go.goM ykvs) with
        | some v3 =>
            have hsy : (lookupA k2 ykvs).isSome = true := by
              rw [lookupA_goM] at ho2
              cases hy : lookupA k2 ykvs with
              | none => rw [hy] at ho2; simp at ho2
              | some _ => simp
            rw [hlk1 k2]
            simp [hsy, hn2]
        | none =>
            have hsy : lookupA k2 ykvs = none := by
              rw [lookupA_goM] at ho2
              cases hy : lookupA k2 ykvs with
              | none => rfl
              | some _ => rw [hy] at ho2; simp at ho2
            rw [hlk1 k2]
            simp [hsy]
  rw [sBatch_append _ hb1, hb2, hE2]

theorem keyDiff : ∀ g, KeyDiffProp g := by
  intro g
  induction g using govIndOn with
  | hnull =>
      intro hrt vY k D hsD hl hyv
      by_cases heq : y2go vY = .gnull
      · exact keyDiff_of_eq heq hyv hsD hl
      · refine keyDiff_of_repl hrt hl ?_
        cases vY <;> simp_all [diffVal, y2go]
  | hbool b =>
      intro hrt vY k D hsD hl hyv
      by_cases heq : y2go vY = .gbool b
      · exact keyDiff_of_eq heq hyv hsD hl
      · refine keyDiff_of_repl hrt hl ?_
        cases vY <;> simp_all [diffVal, y2go]
  | hint i =>
      intro hrt vY k D hsD hl hyv
      by_cases heq : y2go vY = .gint i
      · exact keyDiff_of_eq heq hyv hsD hl
      · refine keyDiff_of_repl hrt hl ?_
        cases vY <;> simp_all [diffVal, y2go]
  | huint u => intro hrt; simp [rtState] at hrt
  | hfloat f =>
      intro hrt vY k D hsD hl hyv
      by_cases heq : y2go vY = .gfloat f
      · exact keyDiff_of_eq heq hyv hsD hl
      · refine keyDiff_of_repl hrt hl ?_
        cases vY <;> simp_all [diffVal, y2go]
  | hstr s =>
      intro hrt vY k D hsD hl hyv
      by_cases heq : y2go vY = .gstr s
      · exact keyDiff_of_eq heq hyv hsD hl
      · refine keyDiff_of_repl hrt hl ?_
        cases vY <;> simp_all [diffVal, y2go]
  | hlist xs ih => intro hrt; simp [rtState] at hrt
  | hbad t => intro hrt; simp [rtState] at hrt
  | hoth s => intro hrt; simp [rtState] at hrt
  | hmap n ih =>
      intro hrt vY k D hsD hl hyv
      have hn : kvSorted n = true ∧ rtState.rtM n = true := by
        simpa [rtState, Bool.and_eq_true] using hrt
      cases vY with
      | ymap ykvs =>
          by_cases heq : y2go (.ymap ykvs) = .gmap n
          · exact keyDiff_of_eq heq hyv hsD hl
          · have hne : y2go.goM ykvs ≠ n := by
              intro h
              exact heq (by simp [y2go, h])
            have harm : diffVal (y2go (.ymap ykvs)) (.gmap n) =
                diffVal.dOld (y2go.goM ykvs) n ++ mapAdds (y2go.goM ykvs) n := by
              simp [y2go, diffVal, hne]
            have hchild := mapPair_batch ykvs n hyv hrt ih
            rw [harm]
            have hpaths : ∀ s ∈ diffVal.dOld (y2go.goM ykvs) n ++
                mapAdds (y2go.goM ykvs) n, s.path ≠ [] := by
              intro s hm
              rcases List.mem_append.mp hm with h1 | h1
              · exact dOld_path_ne _ _ s h1
              · exact mapAdds_path_ne _ _ s h1
            have := sBatch_pref _ ykvs (.ymap (gy.gyM n)) D k hchild hpaths hsD hl
            rw [this]
            rfl
      | ynull =>
          refine keyDiff_of_repl hrt hl ?_
          simp [diffVal, y2go]
      | ybool b =>
          refine keyDiff_of_repl hrt hl ?_
          simp [diffVal, y2go]
      | ylong i =>
          refine keyDiff_of_repl hrt hl ?_
          simp [diffVal, y2go]
      | yfloat f =>
          refine keyDiff_of_repl hrt hl ?_
          simp [diffVal, y2go]
      | ystr s =>
          refine keyDiff_of_repl hrt hl ?_
          simp [diffVal, y2go]
      | yarr xs =>
          refine keyDiff_of_repl hrt hl ?_
          simp [diffVal, y2go]

theorem goApplyOp_render {doc : YV} {s : SOp} (hne : s.path ≠ [])
    (hns : ∀ seg ∈ s.path, noSlash seg = true) :
    goApplyOp doc (renderOp s) =
      match applyS doc s with
      | .ok d => (d, none)
      | .error e => (doc, some e) := by
  unfold goApplyOp
  have hp : (renderOp s).path = renderPtr s.path := by
    simp [renderOp, renderSeg, hne]
  rw [hp, if_neg (renderPtr_ne_empty s.path)]
  rw [goSplit_renderPtr s.path hne hns]
  rfl

theorem goLoop_of_sBatch : ∀ (ops : List SOp) (doc d2 : YV),
    sBatch doc ops = .ok d2 →
    (∀ s ∈ ops, s.path ≠ [] ∧ ∀ seg ∈ s.path, noSlash seg = true) →
    goLoop doc (ops.map renderOp) = (d2, none) := by
  intro ops
  induction ops with
  | nil =>
      intro doc d2 h _
      simp only [sBatch] at h
      injection h with h
      rw [h]
      rfl
  | cons s rest ih =>
      intro doc d2 h hwf
      simp only [sBatch] at h
      cases hs : applyS doc s with
      | error e => rw [hs] at h; exact absurd h (by simp)
      | ok d1 =>
          rw [hs] at h
          simp only [List.map_cons, goLoop]
          rw [goApplyOp_render (hwf s (by simp)).1 (hwf s (by simp)).2, hs]
          exact ih d1 d2 h (fun t ht => hwf t (by simp [ht]))

/-- Slash-freeness of every path segment the differ emits, for round-trippable
inputs. -/
def SegProp (g : GoV) : Prop :=
  rtState g = true →
  ∀ vY : YV, yRT vY = true →
  ∀ s ∈ diffVal (y2go vY) g, ∀ seg ∈ s.path, noSlash seg = true

theorem segs_ns_of_simple {a b : GoV}
    (h : diffVal a b = [] ∨ diffVal a b = [SOp.mk ("replace") [] b []]) :
    ∀ s ∈ diffVal a b, ∀ seg ∈ s.path, noSlash seg = true := by
  rcases h with h | h <;> rw [h] <;> intro s hm seg hseg
  · simp at hm
  · rcases List.mem_singleton.mp hm with rfl
    simp at hseg

theorem dOld_segs_ns :
    ∀ (rem : List (String × YV)) (n : List (String × GoV)),
    yRT.yrtM rem = true → rtState.rtM n = true →
    (∀ kv ∈ n, SegProp (Prod.snd kv)) →
    ∀ s ∈ diffVal.dOld (y2go.goM rem) n, ∀ seg ∈ s.path, noSlash seg = true := by
  intro rem
  induction rem with
  | nil => intro n _ _ _ s hm; simp [y2go.goM, diffVal.dOld] at hm
  | cons kv tl ih =>
      obtain ⟨k2, w⟩ := kv
      intro n hyrt hn hSP s hm seg hseg
      have hyrt' : noSlash k2 = true ∧ yRT w = true ∧ yRT.yrtM tl = true := by
        simpa [yRT.yrtM, Bool.and_eq_true, and_assoc] using hyrt
      have hm' : s ∈ (match lookupA k2 n with
           | none => [SOp.mk ("remove") [k2] .gnull []]
           | some v2 => (diffVal (y2go w) v2).map (withPref k2))
          ++ diffVal.dOld (y2go.goM tl) n := hm
      rcases List.mem_append.mp hm' with h1 | h1
      · cases hln : lookupA k2 n with
        | none =>
            rw [hln] at h1
            rcases List.mem_singleton.mp h1 with rfl
            rcases List.mem_singleton.mp hseg with rfl
            exact hyrt'.1
        | some v2 =>
            rw [hln] at h1
            rcases List.mem_map.mp h1 with ⟨t, htm, rfl⟩
            have hpath : (withPref k2 t).path = k2 :: t.path := rfl
            rw [hpath] at hseg
            rcases List.mem_cons.mp hseg with rfl | h2
            · exact hyrt'.1
            · have hmem : (k2, v2) ∈ n := lookupA_mem hln
              exact hSP (k2, v2) hmem (rtM_mem hn hmem).2 w hyrt'.2.1 t htm seg h2
      · exact ih n hyrt'.2.2 hn hSP s h1 seg hseg

theorem mapAdds_segs_ns :
    ∀ (nrem : List (String × GoV)) (o : List (String × GoV)),
    rtState.rtM nrem = true →
    ∀ s ∈ mapAdds o nrem, ∀ seg ∈ s.path, noSlash seg = true := by
  intro nrem
  induction nrem with
  | nil => intro o _ s hm; simp [mapAdds] at hm
  | cons kv tl ih =>
      obtain ⟨k3, v3⟩ := kv
      intro o hrt s hm seg hseg
      have hrt' : noSlash k3 = true ∧ rtState v3 = true ∧ rtState.rtM tl = true := by
        simpa [rtState.rtM, Bool.and_eq_true, and_assoc] using hrt
      simp only [mapAdds] at hm
      rcases List.mem_append.mp hm with h1 | h1
      · cases hlo : lookupA k3 o with
        | none =>
            rw [hlo] at h1
            rcases List.mem_singleton.mp h1 with rfl
            rcases List.mem_singleton.mp hseg with rfl
            exact hrt'.1
        | some _ => rw [hlo] at h1; simp at h1
      · exact ih o hrt'.2.2 s h1 seg hseg

theorem diff_segs : ∀ g, SegProp g := by
  intro g
  induction g using govIndOn with
  | hnull =>
      intro _ vY _
      apply segs_ns_of_simple
      by_cases heq : y2go vY = .gnull
      · left; rw [heq, diffVal_self]
      · right; cases vY <;> simp_all [diffVal, y2go]
  | hbool b =>
      intro _ vY _
      apply segs_ns_of_simple
      by_cases heq : y2go vY = .gbool b
      · left; rw [heq, diffVal_self]
      · right; cases vY <;> simp_all [diffVal, y2go]
  | hint i =>
      intro _ vY _
      apply segs_ns_of_simple
      by_cases heq : y2go vY = .gint i
      · left; rw [heq, diffVal_self]
      · right; cases vY <;> simp_all [diffVal, y2go]
  | huint u => intro hrt; simp [rtState] at hrt
  | hfloat f =>
      intro _ vY _
      apply segs_ns_of_simple
      by_cases heq : y2go vY = .gfloat f
      · left; rw [heq, diffVal_self]
      · right; cases vY <;> simp_all [diffVal, y2go]
  | hstr s =>
      intro _ vY _
      apply segs_ns_of_simple
      by_cases heq : y2go vY = .gstr s
      · left; rw [heq, diffVal_self]
      · right; cases vY <;> simp_all [diffVal, y2go]
  | hlist xs ih => intro hrt; simp [rtState] at hrt
  | hbad t => intro hrt; simp [rtState] at hrt
  | hoth s => intro hrt; simp [rtState] at hrt
  | hmap n ih =>
      intro hrt vY hyv
      have hn : kvSorted n = true ∧ rtState.rtM n = true := by
        simpa [rtState, Bool.and_eq_true] using hrt
      cases vY with
      | ymap ykvs =>
          by_cases heq : y2go (.ymap ykvs) = .gmap n
          · rw [heq, diffVal_self]
            intro s hm
            simp at hm
          · have hne : y2go.goM ykvs ≠ n := by
              intro h
              exact heq (by simp [y2go, h])
            have harm : diffVal (y2go (.ymap ykvs)) (.gmap n) =
                diffVal.dOld (y2go.goM ykvs) n ++ mapAdds (y2go.goM ykvs) n := by
              simp [y2go, diffVal, hne]
            rw [harm]
            intro s hm
            have hyv' : kvSorted ykvs = true ∧ yRT.yrtM ykvs = true := by
              simpa [yRT, Bool.and_eq_true] using hyv
            rcases List.mem_append.mp hm with h1 | h1
            · exact dOld_segs_ns ykvs n hyv'.2 hn.2 ih s h1
            · exact mapAdds_segs_ns n (y2go.goM ykvs) hn.2 s h1
      | ynull =>
          apply segs_ns_of_simple
          right; simp [diffVal, y2go]
      | ybool b =>
          apply segs_ns_of_simple
          right; simp [diffVal, y2go]
      | ylong i =>
          apply segs_ns_of_simple
          right; simp [diffVal, y2go]
      | yfloat f =>
          apply segs_ns_of_simple
          right; simp [diffVal, y2go]
      | ystr s =>
          apply segs_ns_of_simple
          right; simp [diffVal, y2go]
      | yarr xs =>
          apply segs_ns_of_simple
          right; simp [diffVal, y2go]

/-- Round trip of the spec-modelled differ through the Go applier on
list-free canonical states: the derived patch applies cleanly and the
resulting document reads back exactly as the target.  (This composes the JS
pipeline's differ with the Go applier; the Go pipeline's own differ is the
external snorwin/jsonpatch library, out of scope like the yrs engine.) -/
theorem diffOps_goApply_roundtrip (dkvs : List (String × YV)) (B : List (String × GoV))
    (hdoc : yRT (.ymap dkvs) = true) (hB : rtState (.gmap B) = true) :
    ∃ d2, goApplyOps (.ymap dkvs) (diffOps (.gmap (y2go.goM dkvs)) (.gmap B)) =
        (d2, none) ∧ getState d2 = .ok B := by
  by_cases heq : y2go.goM dkvs = B
  · subst heq
    have hd : diffOps (.gmap (y2go.goM dkvs)) (.gmap (y2go.goM dkvs)) = [] := by
      unfold diffOps
      rw [diffVal_self]
      rfl
    rw [hd]
    exact ⟨.ymap dkvs, rfl, rfl⟩
  · have hops : diffOps (.gmap (y2go.goM dkvs)) (.gmap B) =
        (diffVal.dOld (y2go.goM dkvs) B ++ mapAdds (y2go.goM dkvs) B).map renderOp := by
      unfold diffOps
      have harm : diffVal (.gmap (y2go.goM dkvs)) (.gmap B) =
          diffVal.dOld (y2go.goM dkvs) B ++ mapAdds (y2go.goM dkvs) B := by
        simp [diffVal, heq]
      rw [harm]
    rw [hops]
    have hchild := mapPair_batch dkvs B hdoc hB (fun kv _ => keyDiff (Prod.snd kv))
    have hn : kvSorted B = true ∧ rtState.rtM B = true := by
      simpa [rtState, Bool.and_eq_true] using hB
    have hyv' : kvSorted dkvs = true ∧ yRT.yrtM dkvs = true := by
      simpa [yRT, Bool.and_eq_true] using hdoc
    have hwf : ∀ s ∈ diffVal.dOld (y2go.goM dkvs) B ++ mapAdds (y2go.goM dkvs) B,
        s.path ≠ [] ∧ ∀ seg ∈ s.path, noSlash seg = true := by
      intro s hm
      constructor
      · rcases List.mem_append.mp hm with h1 | h1
        · exact dOld_path_ne _ _ s h1
        · exact mapAdds_path_ne _ _ s h1
      · rcases List.mem_append.mp hm with h1 | h1
        · exact dOld_segs_ns dkvs B hyv'.2 hn.2 (fun kv _ => diff_segs (Prod.snd kv)) s h1
        · exact mapAdds_segs_ns B (y2go.goM dkvs) hn.2 s h1
    have hloop := goLoop_of_sBatch _ (.ymap dkvs) (.ymap (gy.gyM B)) hchild hwf
    have happ : goApplyOps (.ymap dkvs)
        ((diffVal.dOld (y2go.goM dkvs) B ++ mapAdds (y2go.goM dkvs) B).map renderOp) =
        (.ymap (gy.gyM B), none) := by
      unfold goApplyOps
      exact hloop
    refine ⟨.ymap (gy.gyM B), happ, ?_⟩
    have hback : y2go.goM (gy.gyM B) = B := by
      have := y2go_gy (.gmap B) hB
      have h2 : y2go (.ymap (gy.gyM B)) = .gmap B := this
      simp only [y2go] at h2
      injection h2
    simp [getState, hback]

/-! ### Claim-specific support lemmas -/

theorem goLoop_split : ∀ (pre : List Op) (doc d1 d2 : YV) (o : Op) (post : List Op) (e : EK),
    goLoop doc pre = (d1, none) →
    goApplyOp d1 o = (d2, some e) →
    goLoop doc (pre ++ o :: post) = (d2, some e) := by
  intro pre
  induction pre with
  | nil =>
      intro doc d1 d2 o post e h1 h2
      simp only [goLoop] at h1
      injection h1 with h1 _
      subst h1
      simp only [List.nil_append, goLoop, h2]
  | cons p rest ih =>
      intro doc d1 d2 o post e h1 h2
      simp only [goLoop] at h1
      cases hp : goApplyOp doc p with
      | mk dx ex =>
          rw [hp] at h1
          cases ex with
          | none =>
              simp only [List.cons_append, goLoop, hp]
              exact ih dx d1 d2 o post e h1 h2
          | some e2 =>
              simp at h1

theorem goRootApply_map (kvs : List (String × YV)) (o : Op) :
    ∃ kvs2, (goRootApply kvs o).1 = .ymap kvs2 := by
  unfold goRootApply
  split
  · split
    · rename_i m _
      cases hge : goRootEntries [] m with
      | mk kvs2 err => exact ⟨kvs2, rfl⟩
    · exact ⟨[], rfl⟩
    · exact ⟨kvs, rfl⟩
  · split
    · rename_i m _
      cases hge : goRootEntries kvs m with
      | mk kvs2 err => exact ⟨kvs2, rfl⟩
    · exact ⟨kvs, rfl⟩
  · exact ⟨kvs, rfl⟩

theorem goApplyOp_map (kvs : List (String × YV)) (o : Op) :
    ∃ kvs2, (goApplyOp (.ymap kvs) o).1 = .ymap kvs2 := by
  unfold goApplyOp
  by_cases hp : o.path = ""
  · simp only [hp, if_pos rfl]
    exact goRootApply_map kvs o
  · simp only [if_neg hp]
    split
    · rename_i segs _
      cases hnr : goApplyOpNR (.ymap kvs) o segs with
      | ok d =>
          obtain ⟨kvs2, rfl⟩ := goApplyOpNR_map hnr
          exact ⟨kvs2, rfl⟩
      | error e => exact ⟨kvs, rfl⟩
    · exact ⟨kvs, rfl⟩

theorem goLoop_map : ∀ (ops : List Op) (kvs : List (String × YV)),
    ∃ kvs2, (goLoop (.ymap kvs) ops).1 = .ymap kvs2 := by
  intro ops
  induction ops with
  | nil => intro kvs; exact ⟨kvs, rfl⟩
  | cons o rest ih =>
      intro kvs
      simp only [goLoop]
      cases ho : goApplyOp (.ymap kvs) o with
      | mk d err =>
          obtain ⟨kvs1, hk1⟩ := goApplyOp_map kvs o
          rw [ho] at hk1
          simp only at hk1
          subst hk1
          cases err with
          | none => simpa using ih kvs1
          | some e => exact ⟨kvs1, rfl⟩

theorem goApplyOps_map (kvs : List (String × YV)) (ops : List Op) :
    ∃ kvs2, (goApplyOps (.ymap kvs) ops).1 = .ymap kvs2 := by
  unfold goApplyOps
  exact goLoop_map ops kvs

theorem goRootEntries_look : ∀ (m : List (String × GoV)) (acc : List (String × YV)),
    kvSorted m = true → gOK.okM m = true →
    ∃ acc2, goRootEntries acc m = (acc2, none) ∧
      ∀ k2, lookupA k2 acc2 =
        match lookupA k2 m with
        | some v => some (gy v)
        | none => lookupA k2 acc := by
  intro m
  induction m with
  | nil =>
      intro acc _ _
      exact ⟨acc, rfl, fun k2 => by simp [lookupA]⟩
  | cons kv tl ih =>
      obtain ⟨k, v⟩ := kv
      intro acc hs hok
      obtain ⟨htl, hall⟩ := kvSorted_cons hs
      have hok' : gOK v = true ∧ gOK.okM tl = true := by
        simpa [gOK.okM, Bool.and_eq_true] using hok
      have hktl : lookupA k tl = none := lookupA_none_of_ltAll hall
      have hb : buildYInput v = .ok (gy v) := buildYInput_eq_gy v hok'.1
      obtain ⟨acc2, hge, hlk⟩ := ih (insertA k (gy v) acc) htl hok'.2
      refine ⟨acc2, ?_, ?_⟩
      · simp only [goRootEntries, hb, hge]
      · intro k2
        rw [hlk k2]
        by_cases hk2 : k2 = k
        · subst hk2
          simp [lookupA, hktl, lookupA_insertA_self]
        · simp [lookupA, hk2, lookupA_insertA_ne _ hk2]

theorem startsWith_ne {p f : String} (h : strStartsWith p (f ++ "/") = true) : p ≠ f := by
  intro he
  subst he
  unfold strStartsWith at h
  have hap : (p ++ "/").toList = p.toList ++ ['/'] := by
    cases p
    rfl
  rw [hap] at h
  have hlen : ∀ (a b : List Char), isPrefL a b = true → a.length ≤ b.length := by
    intro a
    induction a with
    | nil => intro b _; simp
    | cons x xs ih =>
        intro b hb
        cases b with
        | nil => simp [isPrefL] at hb
        | cons y ys =>
            simp only [isPrefL, Bool.and_eq_true] at hb
            simpa [List.length_cons] using Nat.succ_le_succ (ih ys hb.2)
  have := hlen _ _ h
  simp at this

theorem insertIdx_len_self : ∀ (xs : List YV) (y : YV),
    List.insertIdx xs.length y xs = xs ++ [y] := fun xs y =>
  List.insertIdx_length_self xs y

/-! ### Claims -/

/-- A concrete output of the external differ: for the fresh document (state
`{}`) and the target `{"x": 2^63}`, the patch is a single `add` of the
unsigned value at `/x` (the target's only entry; the differ never generates
`move`, `copy` or `test`).  It only feeds the abstract `differ` parameter of
`updateToState`. -/
def c2Differ : GoV → GoV → Except EK (List Op) :=
  fun _ _ => .ok [Op.mk ("add") "/x" (.guint (2 ^ 63)) ""]

/-- C2 counterexample: updating the fresh document towards `{"x": 2^63}`, the
computed patch (a nonempty `add` of the unsigned value) fails to apply with
Overflow, and `UpdateToState` returns the empty (zero-value) operation list
together with the error — not the computed list, so callers cannot inspect
what was attempted. -/
theorem c2_counterexample :
    (updateToState c2Differ (.ymap []) [("x", .guint (2 ^ 63))]).2.1 = [] ∧
    (updateToState c2Differ (.ymap []) [("x", .guint (2 ^ 63))]).2.2 =
      some EK.overflow ∧
    c2Differ (.gmap [("x", .guint (2 ^ 63))]) (.gmap []) =
      .ok [Op.mk ("add") "/x" (.guint (2 ^ 63)) ""] ∧
    [Op.mk ("add") "/x" (.guint (2 ^ 63)) ""] ≠ ([] : List Op) :=
  ⟨rfl, rfl, rfl, by decide⟩

/-- C2 (amended): for every differ, `UpdateToState` returns the computed
operation list only on full success; on any failure — reading the state,
computing the patch, or applying it — it returns the empty (zero-value) list
together with the error. -/
theorem c2_ops_only_on_success (differ : GoV → GoV → Except EK (List Op))
    (doc : YV) (B : List (String × GoV)) :
    ((updateToState differ doc B).2.2.isSome = true →
      (updateToState differ doc B).2.1 = []) ∧
    (∀ curr ops, getState doc = .ok curr →
      differ (.gmap B) (.gmap curr) = .ok ops →
      (updateToState differ doc B).2.2 = none →
      (updateToState differ doc B).2.1 = ops) := by
  cases hg : getState doc with
  | error e =>
      have he : updateToState differ doc B = (doc, [], some e) := by
        unfold updateToState
        rw [hg]
      rw [he]
      exact ⟨fun _ => rfl, fun curr ops hcurr _ => Except.noConfusion hcurr⟩
  | ok curr =>
      cases hd : differ (.gmap B) (.gmap curr) with
      | error e =>
          have he : updateToState differ doc B = (doc, [], some e) := by
            unfold updateToState
            rw [hg]
            show (match differ (.gmap B) (.gmap curr) with
                  | .error e => ((doc, [], some e) : YV × List Op × Option EK)
                  | .ok ops2 =>
                      match goApplyOps doc ops2 with
                      | (doc2, none) => (doc2, ops2, none)
                      | (doc2, some e) => (doc2, [], some e)) = _
            rw [hd]
          rw [he]
          refine ⟨fun _ => rfl, ?_⟩
          intro curr2 ops2 hcurr hdiff _
          injection hcurr with hcurr
          subst hcurr
          rw [hd] at hdiff
          exact Except.noConfusion hdiff
      | ok ops =>
          have he : updateToState differ doc B =
              (match goApplyOps doc ops with
               | (doc2, none) => ((doc2, ops, none) : YV × List Op × Option EK)
               | (doc2, some e) => (doc2, [], some e)) := by
            unfold updateToState
            rw [hg]
            show (match differ (.gmap B) (.gmap curr) with
                  | .error e => ((doc, [], some e) : YV × List Op × Option EK)
                  | .ok ops2 =>
                      match goApplyOps doc ops2 with
                      | (doc2, none) => (doc2, ops2, none)
                      | (doc2, some e) => (doc2, [], some e)) = _
            rw [hd]
          rw [he]
          cases ha : goApplyOps doc ops with
          | mk d2 err =>
              cases err with
              | none =>
                  refine ⟨fun h => Bool.noConfusion h, ?_⟩
                  intro curr2 ops2 hcurr hdiff _
                  injection hcurr with hcurr
                  subst hcurr
                  rw [hd] at hdiff
                  injection hdiff with hdiff
              | some e =>
                  exact ⟨fun _ => rfl,
                    fun curr2 ops2 hcurr hdiff habs => Option.noConfusion habs⟩

/-- C2 witness: the failure side at the counterexample input — the batch
fails (Overflow), so the returned operation list is empty. -/
theorem c2_witness :
    (updateToState c2Differ (.ymap []) [("x", .guint (2 ^ 63))]).2.2.isSome = true ∧
    (updateToState c2Differ (.ymap []) [("x", .guint (2 ^ 63))]).2.1 = [] :=
  ⟨rfl, (c2_ops_only_on_success c2Differ (.ymap []) [("x", .guint (2 ^ 63))]).1 rfl⟩

/-- C3 counterexample: a `move` whose destination equals its source is applied
without error (the JS guard tests `path !== from && path.startsWith(from +
'/')`, so equality passes) and the document is unchanged — it is not rejected
with InvalidOperation as the claim states. -/
theorem c3_counterexample :
    jsApplyOps (.ymap [("a", .ylong 1)]) [JOp.mk ("move") "/a" .gnull "/a"] =
      (.ymap [("a", .ylong 1)], none) := rfl

/-- C3 (amended): a `move` whose destination is a strict descendant of the
source (pointer begins with `from + "/"`), and whose destination parent chain
is navigable, fails with `InvalidOperation` before any mutation of the
document (the batch returns the unchanged document).  A destination equal to
the source is not rejected; and the Go applier rejects every `move` as
`UnsupportedOperation`, not `InvalidOperation`. -/
theorem c3_strict_descendant_rejected (root : YV) (o : JOp) (par : YV)
    (hop : o.op = "move")
    (hdesc : strStartsWith o.path (o.fromPath ++ "/") = true)
    (hnav : jsNavParent root ((jsSegments o.path).dropLast) = .ok par) :
    jsApplyOp root o = .error .invalidOperation ∧
    jsApplyOps root [o] = (root, some .invalidOperation) := by
  have hne : o.path ≠ o.fromPath := startsWith_ne hdesc
  have hb : (o.path != o.fromPath) = true := by
    simp [bne_iff_ne, hne]
  have h1 : jsApplyOp root o = .error .invalidOperation := by
    simp only [jsApplyOp]
    rw [hnav]
    simp [hop, hb, hdesc]
  exact ⟨h1, by simp [jsApplyOps, h1]⟩

/-- C3 witness: the amended rejection at the spec's own example, `from="/a"`,
`path="/a/b"`. -/
theorem c3_witness :
    (JOp.mk ("move") "/a/b" .gnull "/a").op = "move" ∧
    strStartsWith "/a/b" ("/a" ++ "/") = true ∧
    jsNavParent (.ymap [("a", .ymap [])])
      ((jsSegments "/a/b").dropLast) = .ok (.ymap []) ∧
    (jsApplyOp (.ymap [("a", .ymap [])]) (JOp.mk ("move") "/a/b" .gnull "/a") =
        .error .invalidOperation ∧
      jsApplyOps (.ymap [("a", .ymap [])]) [JOp.mk ("move") "/a/b" .gnull "/a"] =
        (.ymap [("a", .ymap [])], some .invalidOperation)) :=
  ⟨rfl, by decide, rfl,
    c3_strict_descendant_rejected _ _ _ rfl (by decide) rfl⟩

/-- C4 old state: two identity-matched elements. -/
def c4Old : GoV :=
  .gmap [("items", .glist [.gmap [("id", .gint 1), ("v", .gstr "x")],
                           .gmap [("id", .gint 2), ("v", .gstr "y")]])]

/-- C4 new state: the two elements swapped. -/
def c4New : GoV :=
  .gmap [("items", .glist [.gmap [("id", .gint 2), ("v", .gstr "y")],
                           .gmap [("id", .gint 1), ("v", .gstr "x")]])]

/-- C4 document initialized from the old state. -/
def c4DocKvs : List (String × YV) :=
  [("items", .yarr [.ymap [("id", .ylong 1), ("v", .ystr "x")],
                    .ymap [("id", .ylong 2), ("v", .ystr "y")]])]

/-- C4 document matching the new state. -/
def c4TargetKvs : List (String × YV) :=
  [("items", .yarr [.ymap [("id", .ylong 2), ("v", .ystr "y")],
                    .ymap [("id", .ylong 1), ("v", .ystr "x")]])]

/-- C5 counterexample: a root `add` with `nil` value is rejected ("value for
root addition must be a map, got <nil>"), not treated as an empty map — only
root `replace` has the nil special case. -/
theorem c5_counterexample :
    goApplyOp (.ymap [("x", .ylong 1)]) (Op.mk ("add") "" .gnull "") =
      (.ymap [("x", .ylong 1)], some EK.typeMismatch) := rfl

/-- C5 (amended): root operations (empty path): `replace` accepts a map value
(or `nil`, treated as an empty map), removes every existing root key and
inserts every entry of the value; `add` accepts only a map value — `nil` is
rejected — and inserts or overwrites its entries over the existing root keys;
any other root operation fails UnsupportedOperation; other value shapes are
rejected. -/
theorem c5_root_semantics (kvs : List (String × YV)) (m : List (String × GoV)) (o : Op)
    (hpath : o.path = "") :
    (o.op = "replace" → o.value = .gmap m → kvSorted m = true → gOK.okM m = true →
      ∃ kvs2, goApplyOp (.ymap kvs) o = (.ymap kvs2, none) ∧
        ∀ k, lookupA k kvs2 = Option.map gy (lookupA k m)) ∧
    (o.op = "replace" → o.value = .gnull →
      goApplyOp (.ymap kvs) o = (.ymap [], none)) ∧
    (o.op = "add" → o.value = .gmap m → kvSorted m = true → gOK.okM m = true →
      ∃ kvs2, goApplyOp (.ymap kvs) o = (.ymap kvs2, none) ∧
        ∀ k, lookupA k kvs2 = (match lookupA k m with
          | some v => some (gy v)
          | none => lookupA k kvs)) ∧
    (o.op = "add" → o.value = .gnull →
      goApplyOp (.ymap kvs) o = (.ymap kvs, some EK.typeMismatch)) ∧
    (o.op ≠ "replace" → o.op ≠ "add" →
      goApplyOp (.ymap kvs) o = (.ymap kvs, some EK.unsupportedOperation)) := by
  have hred : goApplyOp (.ymap kvs) o = goRootApply kvs o := by
    unfold goApplyOp
    rw [if_pos hpath]
  refine ⟨?_, ?_, ?_, ?_, ?_⟩
  · intro hop hval hsm hokm
    obtain ⟨acc2, hge, hlk⟩ := goRootEntries_look m [] hsm hokm
    refine ⟨acc2, ?_, ?_⟩
    · have he : goRootApply kvs o =
          (match goRootEntries [] m with
           | (kvs2, err) => ((.ymap kvs2 : YV), err)) := by
        unfold goRootApply
        rw [hop, hval]
        rfl
      rw [hred, he, hge]
    · intro k
      rw [hlk k]
      cases lookupA k m <;> simp [lookupA]
  · intro hop hval
    rw [hred]
    unfold goRootApply
    rw [hop, hval]
    rfl
  · intro hop hval hsm hokm
    obtain ⟨acc2, hge, hlk⟩ := goRootEntries_look m kvs hsm hokm
    refine ⟨acc2, ?_, ?_⟩
    · have he2 : goRootApply kvs o =
          (match goRootEntries kvs m with
           | (kvs2, err) => ((.ymap kvs2 : YV), err)) := by
        unfold goRootApply
        rw [hop, hval]
        rfl
      rw [hred, he2, hge]
    · intro k
      rw [hlk k]
  · intro hop hval
    rw [hred]
    unfold goRootApply
    rw [hop, hval]
    rfl
  · intro h1 h2
    rw [hred]
    unfold goRootApply
    split
    · rename_i heq; exact absurd heq h1
    · rename_i heq; exact absurd heq h2
    · rfl

/-- C5 witness: the root semantics exercised at concrete inputs. -/
theorem c5_witness :
    ((Op.mk ("replace") "" (.gmap [("b", .gint 2)]) "").path = "" ∧
      ∃ kvs2, goApplyOp (.ymap [("a", .ylong 1)])
          (Op.mk ("replace") "" (.gmap [("b", .gint 2)]) "") = (.ymap kvs2, none) ∧
        ∀ k, lookupA k kvs2 = Option.map gy (lookupA k [("b", GoV.gint 2)])) ∧
    goApplyOp (.ymap [("a", .ylong 1)]) (Op.mk ("remove") "" .gnull "") =
      (.ymap [("a", .ylong 1)], some EK.unsupportedOperation) := by
  constructor
  · refine ⟨rfl, ?_⟩
    exact (c5_root_semantics [("a", .ylong 1)] [("b", .gint 2)]
      (Op.mk ("replace") "" (.gmap [("b", .gint 2)]) "") rfl).1 rfl rfl (by decide) (by decide)
  · exact ((c5_root_semantics [("a", .ylong 1)] []
      (Op.mk ("remove") "" .gnull "") rfl).2.2.2.2 (by decide) (by decide))

/-- C6 counterexample: with a one-element list at `/l`, the terminal numeral
`4294967296` (= 2^32) is outside `[0, 1]`, yet `add` fails with the
navigation's InvalidPath (the `ParseUint(..., 10, 32)` range error), not
IndexOutOfRange as the claim states for every out-of-range index. -/
theorem c6_counterexample :
    goApplyOp (.ymap [("l", .yarr [.ylong 7])])
      (Op.mk ("add") "/l/4294967296" (GoV.gint 1) "") =
      (.ymap [("l", .yarr [.ylong 7])], some EK.invalidPath) := rfl

/-- C6 (amended): `add` with a non-empty path: a map parent inserts or
overwrites the key and never fails because the key exists; a list parent
accepts a parseable index in `[0, length]` (inserting and shifting later
elements) or the `-` marker (appending); a parseable index greater than the
length fails IndexOutOfRange; a terminal that parses as neither a 32-bit
index nor `-` (including numerals ≥ 2^32) fails InvalidPath in navigation. -/
theorem c6_add_semantics (D : List (String × YV)) (xs : List YV) (g : GoV) (y : YV)
    (k t p f : String) (n : Nat) (hb : buildYInput g = .ok y) :
    (lookupA k D = some (.yarr xs) → parseU32 t = some n → n ≤ xs.length →
      goApplyOpNR (.ymap D) (Op.mk ("add") p g f) [k, t] =
        .ok (.ymap (insertA k (.yarr (List.insertIdx n y xs)) D))) ∧
    (lookupA k D = some (.yarr xs) → parseU32 t = some n → xs.length < n →
      goApplyOpNR (.ymap D) (Op.mk ("add") p g f) [k, t] = .error .indexOutOfRange) ∧
    (lookupA k D = some (.yarr xs) → parseU32 t = none → t ≠ "-" →
      goApplyOpNR (.ymap D) (Op.mk ("add") p g f) [k, t] = .error .invalidPath) ∧
    (lookupA k D = some (.yarr xs) → t = "-" →
      goApplyOpNR (.ymap D) (Op.mk ("add") p g f) [k, t] =
        .ok (.ymap (insertA k (.yarr (xs ++ [y])) D))) ∧
    goApplyOpNR (.ymap D) (Op.mk ("add") p g f) [t] =
      .ok (.ymap (insertA t y D)) := by
  refine ⟨?_, ?_, ?_, ?_, ?_⟩
  · intro hl hp hle
    have hact : opAct (Op.mk ("add") p g f) (.yarr xs) (.idx n) =
        .ok (.yarr (List.insertIdx n y xs)) := by
      simp only [opAct, hb, goAddAct]
      rw [if_neg (by omega)]
    unfold goApplyOpNR
    show goNavApply _ [k, t] _ = _
    simp only [goNavApply, hl, isCont, if_true, hp, hact]
  · intro hl hp hlt
    have hact : opAct (Op.mk ("add") p g f) (.yarr xs) (.idx n) =
        .error .indexOutOfRange := by
      simp only [opAct, hb, goAddAct]
      rw [if_pos (by omega)]
    unfold goApplyOpNR
    show goNavApply _ [k, t] _ = _
    simp only [goNavApply, hl, isCont, if_true, hp, hact]
  · intro hl hp hdash
    unfold goApplyOpNR
    show goNavApply _ [k, t] _ = _
    simp only [goNavApply, hl, isCont, if_true, hp, if_neg hdash]
  · intro hl hdash
    subst hdash
    have hp : parseU32 ("-") = none := rfl
    have hact : opAct (Op.mk ("add") p g f) (.yarr xs) .dash =
        .ok (.yarr (xs ++ [y])) := by
      simp only [opAct, hb, goAddAct, insertIdx_len_self]
    unfold goApplyOpNR
    show goNavApply _ [k, "-"] _ = _
    simp only [goNavApply, hl, isCont, if_true, hp, if_pos rfl, hact]
  · have hact : opAct (Op.mk ("add") p g f) (.ymap D) (.key t) =
        .ok (.ymap (insertA t y D)) := by
      simp only [opAct, hb, goAddAct]
    unfold goApplyOpNR
    show goNavApply _ [t] _ = _
    simp only [goNavApply, hact]

/-- C6 witness: list and map `add` at concrete inputs. -/
theorem c6_witness :
    buildYInput (GoV.gint 9) = .ok (.ylong 9) ∧
    (goApplyOpNR (.ymap [("l", .yarr [.ylong 7])])
        (Op.mk ("add") "/l/1" (GoV.gint 9) "") ["l", "1"] =
      .ok (.ymap [("l", .yarr [.ylong 7, .ylong 9])]) ∧
    goApplyOpNR (.ymap [("l", .yarr [.ylong 7])])
        (Op.mk ("add") "/l/2" (GoV.gint 9) "") ["l", "2"] =
      .error .indexOutOfRange) := by
  refine ⟨rfl, ?_, ?_⟩
  · have := (c6_add_semantics [("l", .yarr [.ylong 7])] [.ylong 7] (GoV.gint 9)
      (.ylong 9) ("l") ("1") "/l/1" "" 1 rfl).1 rfl rfl (by decide)
    simpa using this
  · exact (c6_add_semantics [("l", .yarr [.ylong 7])] [.ylong 7] (GoV.gint 9)
      (.ylong 9) ("l") ("2") "/l/2" "" 2 rfl).2.1 rfl rfl (by decide)

/-- C8: numeric conversion: an unsigned source value at or above `2^63` fails
with Overflow; an unsigned value below `2^63` and every signed integral
source convert to Int64 without error. -/
theorem c8_numeric_conversion (u : Nat) (i : Int) :
    (2 ^ 63 ≤ u → buildYInput (.guint u) = .error .overflow) ∧
    (u < 2 ^ 63 → buildYInput (.guint u) = .ok (.ylong (Int.ofNat u))) ∧
    buildYInput (.gint i) = .ok (.ylong i) := by
  refine ⟨?_, ?_, rfl⟩
  · intro h
    have h2 : u > maxInt64 := by
      unfold maxInt64
      omega
    simp [buildYInput, h2]
  · intro h
    have h2 : ¬ u > maxInt64 := by
      unfold maxInt64
      omega
    simp [buildYInput, h2]

/-- C8 witness: the conversion at `2^63`, `2^63 - 1` and a signed source. -/
theorem c8_witness :
    (2 ^ 63 ≤ 2 ^ 63 ∧ buildYInput (.guint (2 ^ 63)) = .error .overflow) ∧
    ((2 ^ 63 - 1 : Nat) < 2 ^ 63 ∧
      buildYInput (.guint (2 ^ 63 - 1)) = .ok (.ylong (Int.ofNat (2 ^ 63 - 1)))) ∧
    buildYInput (.gint (-5)) = .ok (.ylong (-5)) :=
  ⟨⟨Nat.le_refl _, (c8_numeric_conversion (2 ^ 63) 0).1 (Nat.le_refl _)⟩,
   ⟨by omega, (c8_numeric_conversion (2 ^ 63 - 1) 0).2.1 (by omega)⟩,
   (c8_numeric_conversion 0 (-5)).2.2⟩

/-- C9: batch application is not atomic: if every operation before `o`
succeeds and `o` fails, the batch stops at `o`'s error (nothing after `o` is
applied), the document keeps the effects of the earlier operations (the write
transaction is committed, there is no rollback — the embedding returns the
partially mutated document), and `o`'s error is the one surfaced. -/
theorem c9_partial_batch (kvs : List (String × YV)) (pre post : List Op) (o : Op)
    (d1 d2 : YV) (e : EK)
    (hpre : goApplyOps (.ymap kvs) pre = (d1, none))
    (hop : goApplyOp d1 o = (d2, some e)) :
    goApplyOps (.ymap kvs) (pre ++ o :: post) = (d2, some e) := by
  unfold goApplyOps at hpre ⊢
  exact goLoop_split pre _ d1 d2 o post e hpre hop

/-- C9 witness: a batch whose second operation fails keeps the first
operation's effect and ignores the third. -/
theorem c9_witness :
    goApplyOps (.ymap []) [Op.mk ("add") "/a" (GoV.gint 1) ""] =
      (.ymap [("a", .ylong 1)], none) ∧
    goApplyOp (.ymap [("a", .ylong 1)]) (Op.mk ("remove") "/b" .gnull "") =
      (.ymap [("a", .ylong 1)], some EK.notFound) ∧
    goApplyOps (.ymap [])
      ([Op.mk ("add") "/a" (GoV.gint 1) ""] ++
        Op.mk ("remove") "/b" .gnull "" :: [Op.mk ("add") "/c" (GoV.gint 3) ""]) =
      (.ymap [("a", .ylong 1)], some EK.notFound) :=
  ⟨rfl, rfl, c9_partial_batch [] _ _ _ _ _ _ rfl rfl⟩

/-- C10: root-shape invariant: a fresh document has a map root whose state
reads back as the empty (non-nil) entry map; every batch, successful or
failed, preserves the root being a map; and reading the state of any map-root
document yields the concrete string-keyed entry list (the Go code's nil
normalization guarantees a non-nil map). -/
theorem c10_root_invariant :
    newDoc = YV.ymap [] ∧
    getState newDoc = .ok [] ∧
    (∀ (kvs : List (String × YV)) (ops : List Op),
      ∃ kvs2, (goApplyOps (.ymap kvs) ops).1 = .ymap kvs2) ∧
    (∀ kvs : List (String × YV), getState (.ymap kvs) = .ok (y2go.goM kvs)) :=
  ⟨rfl, rfl, fun kvs ops => goApplyOps_map kvs ops, fun _ => rfl⟩

end AutoSync
